import Mathlib

/-!
Verification of the gopkg.in-style vanity resolver core
(`pkg/vanity/plugins/gopkg`): the reference-advertisement parser/rewriter
`changeRefs`, the TTL refs cache (`getRefs`/`setRefs`), the fetch-and-retry
logic (`fetchRefs` and its caller), and the dual-syntax path grammar
(`patternNew`/`patternOld` + `handle`).

Bytes are modelled as `List Char` (the Go code works on ASCII byte strings);
Go runtime panics (out-of-range slice indexes) are modelled as an explicit
`panicked` outcome, and the parsing loop carries a fuel argument (bounded by
`data.length + 1`, shown sufficient) in place of Go's unbounded `for`.
-/

namespace Gopkg

/-! ## Small string helpers mirroring the Go standard library -/

/-- Go `s[i:j]` for `0 ≤ i ≤ j ≤ len s` (callers check bounds; out-of-range
slices are modelled as explicit panics at each use site). -/
def sub (s : List Char) (i j : Nat) : List Char := (s.drop i).take (j - i)

/-- Go `strings.HasPrefix(s, pat)` (argument order: pattern first). -/
def startsWith : List Char → List Char → Bool
  | [], _ => true
  | _ :: _, [] => false
  | p :: ps, c :: cs => p == c && startsWith ps cs

/-- Go `strings.HasSuffix(s, pat)` (pattern first). -/
def endsWith (pat s : List Char) : Bool := startsWith pat.reverse s.reverse

/-- Go `strings.TrimSuffix(s, pat)` (pattern first). -/
def trimSfx (pat s : List Char) : List Char :=
  if endsWith pat s then s.take (s.length - pat.length) else s

/-- Structural worker for `replaceSymref`: the fuel (one unit per consumed
byte, at least one per step) keeps the recursion structural. -/
def replaceSymrefAux : Nat → List Char → List Char
  | 0, s => s
  | _ + 1, [] => []
  | fuel + 1, c :: cs =>
    if startsWith ("symref=".toList) (c :: cs) then
      ("oldref=".toList) ++ replaceSymrefAux fuel (cs.drop 6)
    else
      c :: replaceSymrefAux fuel cs

/-- Go `strings.Replace(s, "symref=", "oldref=", -1)`: replace every
non-overlapping occurrence, scanning left to right. -/
def replaceSymref (s : List Char) : List Char := replaceSymrefAux s.length s

/-! ## Hexadecimal: Go `strconv.ParseInt(s, 16, 32)` and `fmt.Sprintf("%04x", n)` -/

/-- Value of one hex digit as accepted by Go's `strconv` (both cases). -/
def hexVal (c : Char) : Option Nat :=
  if '0' ≤ c && c ≤ '9' then some (c.toNat - 48)
  else if 'a' ≤ c && c ≤ 'f' then some (c.toNat - 87)
  else if 'A' ≤ c && c ≤ 'F' then some (c.toNat - 55)
  else none

/-- Accumulating value of a hex-digit string; fails on a non-digit. -/
def hexDigitsVal : Nat → List Char → Option Nat
  | acc, [] => some acc
  | acc, c :: cs =>
    match hexVal c with
    | none => none
    | some d => hexDigitsVal (acc * 16 + d) cs

/-- Digits-and-range part of `strconv.ParseInt(s, 16, 32)` after the
optional sign: one or more hex digits, then the 32-bit range check (an
out-of-range value makes ParseInt return an error, which the caller treats
the same as a syntax error). -/
def parseHexCore (neg : Bool) (ds : List Char) : Option Int :=
  match ds with
  | [] => none
  | _ :: _ =>
    match hexDigitsVal 0 ds with
    | none => none
    | some n =>
      let v : Int := if neg then -(n : Int) else (n : Int)
      if v < -(2 ^ 31) || (2 ^ 31) ≤ v then none else some v

/-- Go `strconv.ParseInt(s, 16, 32)`: an optional `+`/`-` sign, then
`parseHexCore`. -/
def parseHexGo (s : List Char) : Option Int :=
  match s with
  | [] => none
  | c :: rest =>
    if c == '+' then parseHexCore false rest
    else if c == '-' then parseHexCore true rest
    else parseHexCore false (c :: rest)

/-- Hex digit character, lowercase, as produced by Go's `%x`. -/
def hexDigitChar (n : Nat) : Char :=
  if n < 10 then Char.ofNat (48 + n) else Char.ofNat (87 + n)

/-- Structural worker for `hexRep`; the fuel dominates the digit count. -/
def hexRepAux : Nat → Nat → List Char
  | 0, _ => []
  | _ + 1, 0 => []
  | fuel + 1, n + 1 => hexRepAux fuel ((n + 1) / 16) ++ [hexDigitChar ((n + 1) % 16)]

/-- Big-endian hex digits of `n`, no leading zeros (`hexRep 0 = []`). -/
def hexRep (n : Nat) : List Char := hexRepAux n n

/-- Go `fmt.Sprintf("%04x", n)`: hex, zero-padded on the left to at least
four digits (longer if the value needs more digits). -/
def sprintf04x (n : Nat) : List Char :=
  let d := if n = 0 then ['0'] else hexRep n
  if d.length < 4 then List.replicate (4 - d.length) '0' ++ d else d

/-! ## Version

The `Version` value type is not part of the examined sources (only its call
sites are); it is modelled from the spec, §3/§4.1.  An absent minor or patch
component is `-1`, matching the source literal `Version{0, -1, -1, false}`
at `fetch.go:168`. -/

/-- Modelled from the spec: release identity `{major, minor?, patch?,
unstable}` with `-1` for an absent component. -/
structure Version where
  Major : Int
  Minor : Int
  Patch : Int
  Unstable : Bool
deriving DecidableEq, Repr

/-- Modelled from the spec: the distinguished "no version selected"
sentinel; its fields cannot be produced by `parseVersion`. -/
def InvalidVersion : Version := ⟨-1, -1, -1, false⟩

/-- Modelled from the spec: a version is valid unless it is the sentinel. -/
def Version.IsValid (v : Version) : Bool := v != InvalidVersion

/-- Modelled from the spec, §3: total order comparing major, then minor
(absent = `-1` sorts below any present value including `0`), then patch;
the unstable flag does not participate. -/
def Version.Less (a b : Version) : Bool :=
  if a.Major != b.Major then a.Major < b.Major
  else if a.Minor != b.Minor then a.Minor < b.Minor
  else a.Patch < b.Patch

/-- Modelled from the spec, §3: a bucket version (minor and patch absent)
contains a full version when majors match and unstable flags match.  The
spec defines containment only for bucket receivers, and every modelled call
site passes a bucket (the path grammar rejects non-bucket requests). -/
def Version.Contains (b v : Version) : Bool :=
  b.Minor == -1 && b.Patch == -1 && b.Major == v.Major && b.Unstable == v.Unstable

/-- Modelled from the spec, §4.1: grammar
`v(0|[1-9][0-9]*)(\.(0|[1-9][0-9]*)){0,2}(-unstable)?` — one numeric
component: `0`, or a nonzero digit followed by digits. -/
def parseNumPart : List Char → Option (Int × List Char)
  | [] => none
  | c :: rest =>
    if c = '0' then some (0, rest)
    else if '1' ≤ c && c ≤ '9' then
      let (ds, rest') := rest.span (fun d => '0' ≤ d && d ≤ '9')
      some ((c :: ds).foldl (fun a d => a * 10 + ((d.toNat : Int) - 48)) 0, rest')
    else none

/-- Modelled from the spec, §4.1: an optional `.<number>` component;
returns `-1` (absent) and the untouched input when the component is not
present in full. -/
def parseOptDotNum (s : List Char) : Int × List Char :=
  match s with
  | '.' :: r =>
    match parseNumPart r with
    | some (n, r') => (n, r')
    | none => (-1, s)
  | _ => (-1, s)

/-- Modelled from the spec, §4.1: `parse(text) -> Version | fail`, full-text
match of the version grammar. -/
def parseVersion (s : List Char) : Option Version :=
  match s with
  | 'v' :: rest =>
    match parseNumPart rest with
    | none => none
    | some (maj, r1) =>
      let (mnr, r2) := parseOptDotNum r1
      let (pat, r3) := parseOptDotNum r2
      let (uns, r4) :=
        if startsWith ("-unstable".toList) r3 then (true, r3.drop 9) else (false, r3)
      if r4 = [] then some ⟨maj, mnr, pat, uns⟩ else none
  | _ => none

/-! ## The advertisement scan loop of `changeRefs` (fetch.go 98-165) -/

/-- Name constants from `changeRefs`. -/
def headN : List Char := ("HEAD".toList)

/-- The `refs/heads/master` reference name. -/
def masterN : List Char := ("refs/heads/master".toList)

/-- The `refs/heads/v` name test of fetch.go:151. -/
def refsHeadsV : List Char := ("refs/heads/v".toList)

/-- The `refs/tags/v` name test of fetch.go:151. -/
def refsTagsV : List Char := ("refs/tags/v".toList)

/-- The `refs/heads/` test of fetch.go:191. -/
def refsHeadsPfx : List Char := ("refs/heads/".toList)

/-- The annotated-tag peel marker trimmed at fetch.go:153. -/
def peelSfx : List Char := ("^\x7b\x7d".toList)

/-- Mutable locals of the parsing loop of `changeRefs` (fetch.go 99-107). -/
structure ScanState where
  hlinei : Nat
  hlinej : Nat
  mlinei : Nat
  mlinej : Nat
  vrefhash : List Char
  vrefname : List Char
  vrefv : Version
  versions : List Version
deriving DecidableEq, Repr

/-- Loop locals before the first iteration. -/
def initScan : ScanState := ⟨0, 0, 0, 0, [], [], InvalidVersion, []⟩

/-- Outcome of the parsing loop.  `badSize`/`incomplete` are the two
`ProtocolError` returns; `panicked` marks a Go runtime panic (slice index
out of range); `outOfFuel` is an artifact of the fuel encoding, proved
unreachable for the fuel `changeRefs` supplies. -/
inductive ScanOut where
  | ok (st : ScanState)
  | badSize (i : Nat)
  | incomplete
  | panicked
  | outOfFuel
deriving DecidableEq, Repr

/-- One data line of the parsing loop (fetch.go 125-164): find the space
delimiting the 40-character hash, extract the name up to the first newline
or NUL, record `HEAD` / `refs/heads/master` spans, and track versions for
`refs/heads/v*` / `refs/tags/v*` names (peel marker trimmed before version
parsing).  `none` models the Go panic of `name[-1:]` (unreachable: the
guarded prefixes contain a `v`). -/
def scanLine (data : List Char) (major : Version) (i j : Nat) (st : ScanState) :
    Option ScanState :=
  let hashi := i + 4
  match (sub data hashi j).findIdx? (fun c => c == ' ') with
  | none => some st
  | some hj =>
    if hj != 40 then some st
    else
      let hashj := hashi + hj
      let namei := hashj + 1
      let namej :=
        match (sub data namei j).findIdx? (fun c => c == '\n' || c == '\x00') with
        | none => j
        | some k => namei + k
      let name := sub data namei namej
      let st1 := if name = headN then { st with hlinei := i, hlinej := j } else st
      let st2 := if name = masterN then { st1 with mlinei := i, mlinej := j } else st1
      if startsWith refsHeadsV name || startsWith refsTagsV name then
        let name2 := trimSfx peelSfx name
        match name2.findIdx? (fun c => c == 'v') with
        | none => none
        | some vi =>
          match parseVersion (name2.drop vi) with
          | none => some st2
          | some v =>
            let st3 :=
              if major.Contains v &&
                  (v == st2.vrefv || !st2.vrefv.IsValid || st2.vrefv.Less v) then
                { st2 with vrefv := v, vrefhash := sub data hashi hashj, vrefname := name2 }
              else st2
            some { st3 with versions := st3.versions ++ [v] }
      else some st2

/-- The parsing loop of `changeRefs` (fetch.go 109-165), one constructor
case per exit.  `i` is the cursor; each iteration reads a 4-hex-digit
length prefix at `i` (the line end is `i + size`, with size `0` treated as
a fixed 4-byte line) and processes one line via `scanLine`. -/
def scanLoop (data : List Char) (major : Version) : Nat → Nat → ScanState → ScanOut
  | 0, _, _ => .outOfFuel
  | fuel + 1, i, st =>
    if i < data.length then
      if data.length < i + 4 then .panicked
      else
        match parseHexGo (sub data i (i + 4)) with
        | none => .badSize i
        | some size0 =>
          if (data.length : Int) < (i : Int) + (if size0 == 0 then 4 else size0) then
            .incomplete
          else if data.head? == some '#' then
            -- fetch.go:121 checks byte 0 of the whole buffer, not of the line
            if ((i : Int) + (if size0 == 0 then 4 else size0)) < 0 then .panicked
            else scanLoop data major fuel ((i : Int) + (if size0 == 0 then 4 else size0)).toNat st
          else if ((i : Int) + (if size0 == 0 then 4 else size0)) < ((i : Int) + 4) then
            .panicked
          else
            match scanLine data major i
                ((i : Int) + (if size0 == 0 then 4 else size0)).toNat st with
            | none => .panicked
            | some st1 =>
              scanLoop data major fuel ((i : Int) + (if size0 == 0 then 4 else size0)).toNat st1
    else .ok st

/-- The parsing loop as run by `changeRefs`: cursor `0`, fresh state, fuel
`data.length + 1` (sufficient: every continuing iteration advances the
cursor by at least 4). -/
def changeRefsScan (data : List Char) (major : Version) : ScanOut :=
  scanLoop data major (data.length + 1) 0 initScan

/-- Result of `changeRefs` (fetch.go 98-219). -/
inductive ChangeOut where
  | ok (changed : List Char) (versions : List Version)
  | badSize (i : Nat)
  | incomplete
  | noVersion
  | panicked
  | outOfFuel
deriving DecidableEq, Repr

/-- The `Version{0, -1, -1, false}` literal of fetch.go:168. -/
def v0Stable : Version := ⟨0, -1, -1, false⟩

/-- The rewrite step of `changeRefs` (fetch.go 177-218), given the final
loop state and the extracted capability string: build the new `HEAD` and
`refs/heads/master` lines and splice the remainder, dropping the original
master line when one was recorded. -/
def rewriteAd (data : List Char) (st : ScanState) (caps : List Char) : ChangeOut :=
  let line1 :=
    if startsWith refsHeadsPfx st.vrefname then
      if caps.isEmpty then
        st.vrefhash ++ (" HEAD\x00symref=HEAD:".toList) ++ st.vrefname ++ ['\n']
      else
        st.vrefhash ++ (" HEAD\x00symref=HEAD:".toList) ++ st.vrefname ++ [' '] ++ caps ++ ['\n']
    else
      if caps.isEmpty then st.vrefhash ++ (" HEAD\n".toList)
      else st.vrefhash ++ (" HEAD\x00".toList) ++ caps ++ ['\n']
  let line2 := st.vrefhash ++ (" refs/heads/master\n".toList)
  let front := data.take st.hlinei
      ++ sprintf04x (4 + line1.length) ++ line1
      ++ sprintf04x (4 + line2.length) ++ line2
  if 0 < st.mlinei then
    if st.mlinei < st.hlinej || data.length < st.mlinei || data.length < st.mlinej then
      .panicked
    else
      .ok (front ++ sub data st.hlinej st.mlinei ++ data.drop st.mlinej) st.versions
  else
    .ok (front ++ data.drop st.hlinej) st.versions

/-- `changeRefs` (fetch.go 98-219): run the parsing loop, then apply the
post-parse decisions of fetch.go 167-175 and the rewrite of 177-218.
Capability extraction (fetch.go 184-187) looks for the first NUL in the
recorded `HEAD` line and rewrites `symref=` keys to `oldref=`. -/
def changeRefs (data : List Char) (major : Version) : ChangeOut :=
  match changeRefsScan data major with
  | .badSize i => .badSize i
  | .incomplete => .incomplete
  | .panicked => .panicked
  | .outOfFuel => .outOfFuel
  | .ok st =>
    if st.versions.isEmpty && major == v0Stable then .ok data []
    else if st.hlinei == 0 || st.vrefhash.isEmpty then .noVersion
    else
      if data.length < st.hlinei || st.hlinej < st.hlinei || data.length < st.hlinej then
        .panicked
      else
        match (sub data st.hlinei st.hlinej).findIdx? (fun c => c == '\x00') with
        | some iN =>
          if 0 < iN then
            if st.hlinej - 1 < st.hlinei + iN + 1 then .panicked
            else rewriteAd data st (replaceSymref (sub data (st.hlinei + iN + 1) (st.hlinej - 1)))
          else rewriteAd data st []
        | none => rewriteAd data st []

/-! ## Refs cache and fetch (fetch.go 30-96, vanity.go 64-71)

Time is modelled in abstract seconds (`Nat`); the TTL is 60 such units for
the source's `1 * time.Minute`.  The process-wide map is an association
list with leftmost binding current; the network is an explicit response
oracle passed in (one value per outbound attempt).  `CloseIdleConnections`
has no observable effect on the modelled state. -/

/-- A `refsCacheEntry` (fetch.go 30-33). -/
structure RefsCacheEntry where
  refs : List Char
  timestamp : Nat
deriving DecidableEq, Repr

/-- The `refsCache` map. -/
abbrev RefsCache := List (String × RefsCacheEntry)

/-- `refsCacheTTL = 1 * time.Minute`, in modelled seconds. -/
def refsCacheTTL : Nat := 60

/-- `getRefs` (fetch.go 40-49): return the stored payload only when the
entry exists and `now - fetchedAt < TTL`. -/
def getRefs (cache : RefsCache) (now : Nat) (root : String) : Option (List Char) :=
  match cache.lookup root with
  | some entry => if now - entry.timestamp < refsCacheTTL then some entry.refs else none
  | none => none

/-- `setRefs` (fetch.go 51-63): discard the write when a still-fresh entry
exists for the key; otherwise store the payload with the current time (the
new leftmost binding shadows any stale one). -/
def setRefs (cache : RefsCache) (now : Nat) (root : String) (refs : List Char) : RefsCache :=
  match cache.lookup root with
  | some entry =>
    if now - entry.timestamp < refsCacheTTL then cache
    else (root, ⟨refs, now⟩) :: cache
  | none => (root, ⟨refs, now⟩) :: cache

/-- One outbound discovery attempt's outcome as seen by `fetchRefs`. -/
inductive HttpResp where
  | status (code : Nat) (body : List Char)
  | timeout
  | netErr
deriving DecidableEq, Repr

/-- The error classification of `fetchRefs` (fetch.go 72-88). -/
inductive FetchErr where
  | timeout
  | noRepo
  | upstream (code : Nat)
  | netErr
deriving DecidableEq, Repr

/-- `fetchRefs` (fetch.go 67-96): cache check, then one outbound request
classified by status; a 200 body is written to the cache keyed by the
repository root. -/
def fetchRefs (cache : RefsCache) (now : Nat) (root : String) (resp : HttpResp) :
    Except FetchErr (List Char) × RefsCache :=
  match getRefs cache now root with
  | some refs => (.ok refs, cache)
  | none =>
    match resp with
    | .timeout => (.error .timeout, cache)
    | .netErr => (.error .netErr, cache)
    | .status code body =>
      if code == 200 then (.ok body, setRefs cache now root body)
      else if code == 401 || code == 404 then (.error .noRepo, cache)
      else (.error (.upstream code), cache)

/-- The caller's retry (vanity.go 66-71): when the first attempt returns
the timeout sentinel, close idle connections and retry exactly once; any
other outcome is final and the second response is never consumed. -/
def fetchRefsRetry (cache : RefsCache) (now : Nat) (root : String)
    (resp1 resp2 : HttpResp) : Except FetchErr (List Char) × RefsCache :=
  match fetchRefs cache now root resp1 with
  | (.error .timeout, c1) => fetchRefs c1 now root resp2
  | r => r

/-! ## Structured advertisements

To reason uniformly about `changeRefs` on well-formed payloads, an
advertisement is modelled as a list of lines: a `0000` delimiter or a
payload re-encoded with its own 4-hex-digit length prefix (`4 + length`),
exactly the framing the rewriter itself emits.  `scanLoop` on such an
encoding is proved equal to a left fold of a per-line step function. -/

/-- One protocol line: a `0000` delimiter, or a payload line. -/
inductive AdLine where
  | flush
  | data (payload : List Char)
deriving DecidableEq, Repr

/-- The payload bytes of a line (a delimiter has none). -/
def payloadOf : AdLine → List Char
  | .flush => []
  | .data p => p

/-- The wire form of one line. -/
def encAdLine : AdLine → List Char
  | .flush => ("0000".toList)
  | .data p => sprintf04x (4 + p.length) ++ p

/-- The wire length of one line as the parser computes it (a `0000`
delimiter is treated as a fixed 4-byte line). -/
def lineLen : AdLine → Nat
  | .flush => 4
  | .data p => 4 + p.length

/-- The wire form of a whole advertisement. -/
def encAd (ls : List AdLine) : List Char := (ls.map encAdLine).flatten

/-- A line is physically well formed when its payload fits the 4-hex-digit
length prefix (`4 + length ≤ 0xffff`). -/
def wfLineB : AdLine → Bool
  | .flush => true
  | .data p => p.length ≤ 65531

/-- The stronger size bound used for rewrite arguments: small enough that
the rewritten `HEAD` line (hash, symref capability, name and preserved
capabilities) also fits its 4-hex-digit prefix. -/
def smallLineB : AdLine → Bool
  | .flush => true
  | .data p => p.length ≤ 16000

/-- The hash/name reading of a payload, as the loop body performs it: the
first space must sit exactly after 40 hash characters; the name runs from
byte 41 to the first newline or NUL (or the end). -/
def lineName? (p : List Char) : Option (List Char × List Char) :=
  match p.findIdx? (fun c => c == ' ') with
  | none => none
  | some hj =>
    if hj != 40 then none
    else
      let rest := p.drop 41
      let stop :=
        match rest.findIdx? (fun c => c == '\n' || c == '\x00') with
        | none => rest.length
        | some k => k
      some (p.take 40, rest.take stop)

/-- The version reading of a line: for a `refs/heads/v*` or `refs/tags/v*`
name, trim the peel marker and parse a version from the first `v`. -/
def lineVer? (l : AdLine) : Option (Version × List Char × List Char) :=
  match lineName? (payloadOf l) with
  | none => none
  | some (h, name) =>
    if startsWith refsHeadsV name || startsWith refsTagsV name then
      let name2 := trimSfx peelSfx name
      match parseVersion (name2.drop ((name2.findIdx? (fun c => c == 'v')).getD 0)) with
      | none => none
      | some v => some (v, h, name2)
    else none

/-- Effect of one line on the loop state, with the line starting at byte
offset `i`: record `HEAD` / `refs/heads/master` spans and track the best
version, mirroring `scanLine`. -/
def stepLine (major : Version) (st : ScanState) (i : Nat) (l : AdLine) : ScanState :=
  match lineName? (payloadOf l) with
  | none => st
  | some (h, name) =>
    let j := i + lineLen l
    let st1 := if name = headN then { st with hlinei := i, hlinej := j } else st
    let st2 := if name = masterN then { st1 with mlinei := i, mlinej := j } else st1
    if startsWith refsHeadsV name || startsWith refsTagsV name then
      let name2 := trimSfx peelSfx name
      match parseVersion (name2.drop ((name2.findIdx? (fun c => c == 'v')).getD 0)) with
      | none => st2
      | some v =>
        let st3 :=
          if major.Contains v && (v == st2.vrefv || !st2.vrefv.IsValid || st2.vrefv.Less v) then
            { st2 with vrefv := v, vrefhash := h, vrefname := name2 }
          else st2
        { st3 with versions := st3.versions ++ [v] }
    else st2

/-- The scan of a structured advertisement as a fold over its lines,
threading the byte offset. -/
def foldScan (major : Version) : ScanState → Nat → List AdLine → ScanState
  | st, _, [] => st
  | st, i, l :: ls => foldScan major (stepLine major st i l) (i + lineLen l) ls

/-- The discovered-version list of a structured advertisement, in stream
order (peeled duplicates included), independent of the requested bucket. -/
def versionsOf (ls : List AdLine) : List Version :=
  ls.filterMap (fun l => (lineVer? l).map (fun t => t.1))


/-! ## Hex round trip: the emitted `%04x` prefix parses back -/

/-- Unfolding equation for `hexDigitsVal` on a cons. -/
theorem hexDigitsVal_cons (acc : Nat) (c : Char) (cs : List Char) :
    hexDigitsVal acc (c :: cs) =
      match hexVal c with
      | none => none
      | some d => hexDigitsVal (acc * 16 + d) cs := rfl

/-- A produced hex digit character reads back as its value. -/
theorem hexVal_hexDigitChar (d : Nat) (h : d < 16) :
    hexVal (hexDigitChar d) = some d := by
  interval_cases d <;> decide

/-- `hexDigitsVal` over an append runs the two halves in sequence. -/
theorem hexDigitsVal_append (acc : Nat) (l1 l2 : List Char) :
    hexDigitsVal acc (l1 ++ l2) =
      match hexDigitsVal acc l1 with
      | none => none
      | some m => hexDigitsVal m l2 := by
  induction l1 generalizing acc with
  | nil => rfl
  | cons c cs ih =>
    rw [List.cons_append, hexDigitsVal_cons, hexDigitsVal_cons]
    cases hexVal c with
    | none => rfl
    | some d => exact ih _

/-- Leading zeros do not change a value accumulated from zero. -/
theorem hexDigitsVal_zeros (k : Nat) (l : List Char) :
    hexDigitsVal 0 (List.replicate k '0' ++ l) = hexDigitsVal 0 l := by
  induction k with
  | zero => rfl
  | succ m ih =>
    rw [List.replicate_succ, List.cons_append, hexDigitsVal_cons]
    have h0 : hexVal '0' = some 0 := by decide
    rw [h0]
    exact ih

/-- `hexRepAux fuel 0` is empty for every fuel. -/
theorem hexRepAux_zero (fuel : Nat) : hexRepAux fuel 0 = [] := by
  cases fuel <;> rfl

/-- Value of the produced digit string, with an arbitrary accumulator. -/
theorem hexRepAux_val :
    ∀ (fuel n acc : Nat), 0 < n → n ≤ fuel →
      hexDigitsVal acc (hexRepAux fuel n) =
        some (acc * 16 ^ (hexRepAux fuel n).length + n) := by
  intro fuel
  induction fuel with
  | zero => intro n acc hn hf; omega
  | succ f ih =>
    intro n acc hn hf
    match n, hn with
    | m + 1, _ =>
      rw [show hexRepAux (f + 1) (m + 1)
        = hexRepAux f ((m + 1) / 16) ++ [hexDigitChar ((m + 1) % 16)] from rfl]
      rw [hexDigitsVal_append]
      have hr : (m + 1) % 16 < 16 := Nat.mod_lt _ (by omega)
      have hdm := Nat.div_add_mod (m + 1) 16
      by_cases hq : (m + 1) / 16 = 0
      · rw [hq, hexRepAux_zero]
        show hexDigitsVal acc [hexDigitChar ((m + 1) % 16)] = _
        rw [hexDigitsVal_cons, hexVal_hexDigitChar _ hr]
        rw [hq] at hdm
        simp only [List.nil_append, List.length_cons, List.length_nil]
        show some (acc * 16 + (m + 1) % 16) = some (acc * 16 ^ (0 + 1) + (m + 1))
        rw [pow_succ, pow_zero]
        congr 1
        omega
      · have hqf : (m + 1) / 16 ≤ f := by
          have := Nat.div_lt_self (show 0 < m + 1 by omega) (show 1 < 16 by omega)
          omega
        rw [ih _ acc (by omega) hqf]
        dsimp only
        rw [hexDigitsVal_cons, hexVal_hexDigitChar _ hr]
        show some ((acc * 16 ^ (hexRepAux f ((m + 1) / 16)).length + (m + 1) / 16) * 16
          + (m + 1) % 16) = _
        rw [List.length_append, List.length_cons, List.length_nil]
        rw [pow_succ]
        congr 1
        have hring : (acc * 16 ^ (hexRepAux f ((m + 1) / 16)).length + (m + 1) / 16) * 16
            = acc * (16 ^ (hexRepAux f ((m + 1) / 16)).length * 16) + (m + 1) / 16 * 16 := by
          ring
        omega

/-- Digit-count bound: below `16 ^ k` at most `k` digits are produced. -/
theorem hexRepAux_length_le :
    ∀ (k fuel n : Nat), n < 16 ^ k → (hexRepAux fuel n).length ≤ k := by
  intro k
  induction k with
  | zero =>
    intro fuel n h
    have : n = 0 := by simpa using h
    subst this
    rw [hexRepAux_zero]
    exact Nat.le_refl 0
  | succ k ih =>
    intro fuel n h
    cases fuel with
    | zero => simp [hexRepAux]
    | succ f =>
      cases n with
      | zero => simp [hexRepAux_zero]
      | succ m =>
        show (hexRepAux f ((m + 1) / 16) ++ [hexDigitChar ((m + 1) % 16)]).length ≤ k + 1
        rw [List.length_append, List.length_cons, List.length_nil]
        have hdiv : (m + 1) / 16 < 16 ^ k := by
          rw [Nat.div_lt_iff_lt_mul (by omega : 0 < 16)]
          calc m + 1 < 16 ^ (k + 1) := h
          _ = 16 ^ k * 16 := by rw [pow_succ]
        have := ih f ((m + 1) / 16) hdiv
        omega

/-- Every character the hex printer emits is a hex digit. -/
theorem hexRepAux_all_hex :
    ∀ (fuel n : Nat), ∀ c ∈ hexRepAux fuel n, (hexVal c).isSome := by
  intro fuel
  induction fuel with
  | zero => intro n c hc; simp [hexRepAux] at hc
  | succ f ih =>
    intro n c hc
    cases n with
    | zero => rw [hexRepAux_zero] at hc; simp at hc
    | succ m =>
      rw [show hexRepAux (f + 1) (m + 1)
          = hexRepAux f ((m + 1) / 16) ++ [hexDigitChar ((m + 1) % 16)] from rfl] at hc
      rcases List.mem_append.mp hc with h | h
      · exact ih _ c h
      · have : c = hexDigitChar ((m + 1) % 16) := by simpa using h
        subst this
        rw [hexVal_hexDigitChar _ (Nat.mod_lt _ (by omega))]
        rfl

/-- The padded prefix has exactly four characters for values up to `ffff`. -/
theorem sprintf04x_length (n : Nat) (h : n ≤ 65535) : (sprintf04x n).length = 4 := by
  unfold sprintf04x
  by_cases h0 : n = 0
  · subst h0; rfl
  · rw [if_neg h0]
    have hle : (hexRep n).length ≤ 4 := hexRepAux_length_le 4 n n (by omega)
    by_cases hlt : (hexRep n).length < 4
    · rw [if_pos hlt, List.length_append, List.length_replicate]
      omega
    · rw [if_neg hlt]
      omega

/-- Every character of the padded prefix is a hex digit. -/
theorem sprintf04x_all_hex (n : Nat) : ∀ c ∈ sprintf04x n, (hexVal c).isSome := by
  intro c hc
  unfold sprintf04x at hc
  have hd : ∀ x ∈ (if n = 0 then ['0'] else hexRep n), (hexVal x).isSome := by
    intro x hx
    by_cases h0 : n = 0
    · rw [if_pos h0] at hx
      have : x = '0' := by simpa using hx
      subst this; decide
    · rw [if_neg h0] at hx
      exact hexRepAux_all_hex n n x hx
  by_cases hlt : (if n = 0 then ['0'] else hexRep n).length < 4
  · rw [if_pos hlt] at hc
    rcases List.mem_append.mp hc with h | h
    · have : c = '0' := List.eq_of_mem_replicate h
      subst this; decide
    · exact hd c h
  · rw [if_neg hlt] at hc
    exact hd c hc

/-- The emitted `%04x` prefix parses back to its value (32-bit range checks
cannot fire below `0x10000`). -/
theorem parseHexGo_sprintf04x (n : Nat) (h : n ≤ 65535) :
    parseHexGo (sprintf04x n) = some (n : Int) := by
  have hlen : (sprintf04x n).length = 4 := sprintf04x_length n h
  have hval : hexDigitsVal 0 (sprintf04x n) = some n := by
    unfold sprintf04x
    have hcore : hexDigitsVal 0 (if n = 0 then ['0'] else hexRep n) = some n := by
      by_cases h0 : n = 0
      · subst h0; rfl
      · rw [if_neg h0]
        unfold hexRep
        rw [hexRepAux_val n n 0 (by omega) (Nat.le_refl n)]
        simp
    by_cases hlt : (if n = 0 then ['0'] else hexRep n).length < 4
    · rw [if_pos hlt, hexDigitsVal_zeros]
      exact hcore
    · rw [if_neg hlt]
      exact hcore
  rcases hs : sprintf04x n with _ | ⟨c, rest⟩
  · rw [hs] at hlen; simp at hlen
  · rw [hs] at hval
    have hchex : (hexVal c).isSome := by
      have := sprintf04x_all_hex n c (by rw [hs]; exact List.mem_cons_self c rest)
      exact this
    have hcp : (c == '+') = false := by
      rcases hb : c == '+' with _ | _
      · rfl
      · have hcc : c = '+' := by simpa using hb
        subst hcc
        exact absurd hchex (by decide)
    have hcm : (c == '-') = false := by
      rcases hb : c == '-' with _ | _
      · rfl
      · have hcc : c = '-' := by simpa using hb
        subst hcc
        exact absurd hchex (by decide)
    unfold parseHexGo
    dsimp only
    rw [hcp, hcm]
    simp only [Bool.false_eq_true, if_false]
    unfold parseHexCore
    dsimp only
    rw [hval]
    dsimp only
    rw [if_neg (by simp; omega)]
    simp

/-! ## Prefix/suffix facts and the `v` index inside guarded names -/

/-- `startsWith` is prefix decomposition. -/
theorem startsWith_iff (pat s : List Char) :
    startsWith pat s = true ↔ ∃ t, s = pat ++ t := by
  induction pat generalizing s with
  | nil =>
    constructor
    · intro _; exact ⟨s, rfl⟩
    · intro _; rfl
  | cons p ps ih =>
    cases s with
    | nil =>
      constructor
      · intro hcon; exact absurd hcon (by simp [startsWith])
      · rintro ⟨t, ht⟩; exact absurd ht (by simp)
    | cons c cs =>
      rw [show startsWith (p :: ps) (c :: cs) = ((p == c) && startsWith ps cs) from rfl]
      rw [Bool.and_eq_true, beq_iff_eq, ih]
      constructor
      · rintro ⟨hpc, t, ht⟩
        exact ⟨t, by rw [List.cons_append, ← hpc, ht]⟩
      · rintro ⟨t, ht⟩
        rw [List.cons_append] at ht
        injection ht with h1 h2
        exact ⟨h1.symm, t, h2⟩

/-- `endsWith` is suffix decomposition. -/
theorem endsWith_iff (pat s : List Char) :
    endsWith pat s = true ↔ ∃ t, s = t ++ pat := by
  unfold endsWith
  rw [startsWith_iff]
  constructor
  · rintro ⟨t, ht⟩
    refine ⟨t.reverse, ?_⟩
    have := congrArg List.reverse ht
    simpa using this
  · rintro ⟨t, rfl⟩
    exact ⟨t.reverse, by simp⟩

/-- A character present in the list has a `findIdx?` position. -/
theorem findIdx?_isSome_of_mem {l : List Char} {c : Char} (h : c ∈ l) :
    ∃ k, l.findIdx? (fun x => x == c) = some k := by
  cases hf : l.findIdx? (fun x => x == c) with
  | some k => exact ⟨k, rfl⟩
  | none =>
    rw [List.findIdx?_eq_none_iff] at hf
    exact absurd (hf c h) (by simp)

/-- A name guarded by `refs/heads/v` or `refs/tags/v` still contains a `v`
after trimming the peel marker, so `strings.IndexByte(name, 'v')` cannot
return `-1` (fetch.go:155 never panics). -/
theorem vIdx_exists (name : List Char)
    (h : startsWith refsHeadsV name = true ∨ startsWith refsTagsV name = true) :
    ∃ k, (trimSfx peelSfx name).findIdx? (fun c => c == 'v') = some k := by
  apply findIdx?_isSome_of_mem
  have hp : ∃ pfx t, ('v' ∈ pfx ∧ '^' ∉ pfx) ∧ name = pfx ++ t := by
    rcases h with h | h
    · rcases (startsWith_iff _ _).mp h with ⟨t, ht⟩
      exact ⟨refsHeadsV, t, ⟨by decide, by decide⟩, ht⟩
    · rcases (startsWith_iff _ _).mp h with ⟨t, ht⟩
      exact ⟨refsTagsV, t, ⟨by decide, by decide⟩, ht⟩
  rcases hp with ⟨pfx, t, ⟨hv, hcaret⟩, hname⟩
  unfold trimSfx
  by_cases he : endsWith peelSfx name = true
  · rw [if_pos he]
    rcases (endsWith_iff _ _).mp he with ⟨u, hu⟩
    have hlen : name.length = u.length + 3 := by
      rw [hu, List.length_append]; rfl
    have htake : name.take (name.length - peelSfx.length) = u := by
      rw [hu]
      have h3 : (u ++ peelSfx).length - peelSfx.length = u.length := by
        rw [List.length_append]; omega
      rw [h3]
      exact List.take_left u peelSfx
    rw [htake]
    by_cases hul : pfx.length ≤ u.length
    · have h1 : name.take pfx.length = pfx := by
        rw [hname]; exact List.take_left pfx t
      have h2 : name.take pfx.length = u.take pfx.length := by
        rw [hu]; exact List.take_append_of_le_length hul
      have hpu : pfx = u.take pfx.length := by
        calc pfx = name.take pfx.length := h1.symm
        _ = u.take pfx.length := h2
      have hvu : 'v' ∈ u.take pfx.length := by rw [← hpu]; exact hv
      exact List.mem_of_mem_take hvu
    · exfalso
      have hcar : name.get? u.length = some '^' := by
        rw [hu, List.get?_append_right (Nat.le_refl u.length)]
        simp
        rfl
      have hlt : u.length < pfx.length := by omega
      rw [hname, List.get?_append hlt] at hcar
      exact hcaret (List.get?_mem hcar)
  · rw [if_neg he]
    rw [hname]
    exact List.mem_append_left t hv


/-! ## The per-line correspondence: `scanLine` on the wire equals `stepLine` -/

/-- Wire length is prefix plus payload. -/
theorem lineLen_eq (l : AdLine) : lineLen l = 4 + (payloadOf l).length := by
  cases l <;> rfl

/-- On a buffer whose bytes from `i + 4` on start with the line's payload,
the loop body `scanLine` computes exactly the structured `stepLine` (and
never takes its panic branch). -/
theorem scanLine_eq_stepLine (data : List Char) (major : Version) (i : Nat)
    (st : ScanState) (l : AdLine) (rest : List Char)
    (hdrop : data.drop (i + 4) = payloadOf l ++ rest) :
    scanLine data major i (i + lineLen l) st = some (stepLine major st i l) := by
  have hll : lineLen l = 4 + (payloadOf l).length := lineLen_eq l
  have hsub1 : sub data (i + 4) (i + lineLen l) = payloadOf l := by
    unfold sub
    rw [hdrop, hll, show i + (4 + (payloadOf l).length) - (i + 4) = (payloadOf l).length
      from by omega]
    exact List.take_left _ rest
  unfold scanLine stepLine lineName?
  dsimp only
  rw [hsub1]
  cases hsp : (payloadOf l).findIdx? (fun c => c == ' ') with
  | none => rfl
  | some hj =>
    by_cases h40 : hj = 40
    · subst h40
      dsimp only
      rw [show ((40 : Nat) != 40) = false from rfl]
      simp only [Bool.false_eq_true, if_false]
      have hlen40 : 40 < (payloadOf l).length :=
        ((List.findIdx?_eq_some_iff_findIdx_eq).mp hsp).1
      have hdrop41 : data.drop (i + 4 + 40 + 1) = (payloadOf l).drop 41 ++ rest := by
        rw [show i + 4 + 40 + 1 = (i + 4) + 41 from by omega, ← List.drop_drop, hdrop]
        exact List.drop_append_of_le_length (by omega)
      have hsub2 : sub data (i + 4 + 40 + 1) (i + lineLen l) = (payloadOf l).drop 41 := by
        unfold sub
        rw [hdrop41, hll, show i + (4 + (payloadOf l).length) - (i + 4 + 40 + 1)
          = ((payloadOf l).drop 41).length from by rw [List.length_drop]; omega]
        exact List.take_left _ rest
      have hsub3 : sub data (i + 4) (i + 4 + 40) = (payloadOf l).take 40 := by
        unfold sub
        rw [hdrop, show i + 4 + 40 - (i + 4) = 40 from by omega]
        exact List.take_append_of_le_length (by omega)
      rw [hsub2, hsub3]
      cases hsp2 : ((payloadOf l).drop 41).findIdx? (fun c => c == '\n' || c == '\x00') with
      | none =>
        have hname : sub data (i + 4 + 40 + 1) (i + lineLen l) = (payloadOf l).drop 41 := hsub2
        rw [hname, List.take_length]
        by_cases hsw : (startsWith refsHeadsV ((payloadOf l).drop 41)
            || startsWith refsTagsV ((payloadOf l).drop 41)) = true
        · rw [if_pos hsw, if_pos hsw]
          rcases vIdx_exists _ (by simpa using hsw) with ⟨vi, hvi⟩
          rw [hvi]
          simp only [Option.getD_some]
          cases parseVersion (List.drop vi (trimSfx peelSfx
            (List.drop 41 (payloadOf l)))) <;> rfl
        · rw [if_neg hsw, if_neg hsw]
      | some k =>
        have hk : k < ((payloadOf l).drop 41).length :=
          ((List.findIdx?_eq_some_iff_findIdx_eq).mp hsp2).1
        have hsub4 : sub data (i + 4 + 40 + 1) (i + 4 + 40 + 1 + k)
            = ((payloadOf l).drop 41).take k := by
          unfold sub
          rw [hdrop41, show i + 4 + 40 + 1 + k - (i + 4 + 40 + 1) = k from by omega]
          exact List.take_append_of_le_length (by omega)
        rw [hsub4]
        by_cases hsw : (startsWith refsHeadsV (((payloadOf l).drop 41).take k)
            || startsWith refsTagsV (((payloadOf l).drop 41).take k)) = true
        · rw [if_pos hsw, if_pos hsw]
          rcases vIdx_exists _ (by simpa using hsw) with ⟨vi, hvi⟩
          rw [hvi]
          simp only [Option.getD_some]
          cases parseVersion (List.drop vi (trimSfx peelSfx
            (List.take k (List.drop 41 (payloadOf l))))) <;> rfl
        · rw [if_neg hsw, if_neg hsw]
    · have hbne : (hj != 40) = true := by simpa using h40
      dsimp only
      rw [if_pos hbne, if_pos hbne]


/-! ## The master lemma: the loop over an encoded advertisement is a fold -/

/-- Every line occupies at least 4 wire bytes. -/
theorem lineLen_ge_4 (l : AdLine) : 4 ≤ lineLen l := by
  cases l with
  | flush => exact Nat.le_refl 4
  | data p => exact Nat.le_add_right 4 p.length

/-- The padded prefix always has at least four characters. -/
theorem sprintf04x_length_ge (n : Nat) : 4 ≤ (sprintf04x n).length := by
  by_cases h0 : n = 0
  · subst h0; decide
  · unfold sprintf04x
    dsimp only
    rw [if_neg h0]
    split
    · rw [List.length_append, List.length_replicate]
      omega
    · omega

/-- The wire form of a well-formed line has exactly `lineLen` bytes. -/
theorem encAdLine_length (l : AdLine) (hw : wfLineB l = true) :
    (encAdLine l).length = lineLen l := by
  cases l with
  | flush => rfl
  | data p =>
    show (sprintf04x (4 + p.length) ++ p).length = 4 + p.length
    rw [List.length_append, sprintf04x_length _ (by
      have hb : p.length ≤ 65531 := by simpa [wfLineB] using hw
      omega)]

/-- Encoding a cons. -/
theorem encAd_cons (l : AdLine) (ls : List AdLine) :
    encAd (l :: ls) = encAdLine l ++ encAd ls := by
  simp [encAd]

/-- Encoding an append. -/
theorem encAd_append (a b : List AdLine) :
    encAd (a ++ b) = encAd a ++ encAd b := by
  simp [encAd]

/-- The wire form of a line starts with a hex digit. -/
theorem encAdLine_head_hex (l : AdLine) :
    ∃ c t, encAdLine l = c :: t ∧ (hexVal c).isSome := by
  cases l with
  | flush => exact ⟨'0', ("000".toList), rfl, by decide⟩
  | data p =>
    rcases hsp : sprintf04x (4 + p.length) with _ | ⟨d, ds⟩
    · exfalso
      have := sprintf04x_length_ge (4 + p.length)
      rw [hsp] at this
      simp at this
    · refine ⟨d, ds ++ p, ?_, ?_⟩
      · show sprintf04x (4 + p.length) ++ p = d :: (ds ++ p)
        rw [hsp]
        rfl
      · exact sprintf04x_all_hex _ d (by rw [hsp]; exact List.mem_cons_self d ds)

/-- An encoded advertisement never starts with `#`: the whole-buffer `#`
check of fetch.go:121 cannot fire on one. -/
theorem encAd_head_ne_sharp (ls : List AdLine) : (encAd ls).head? ≠ some '#' := by
  cases ls with
  | nil => simp [encAd]
  | cons l ls =>
    rw [encAd_cons]
    rcases encAdLine_head_hex l with ⟨c, t, hct, hhex⟩
    rw [hct]
    intro hcon
    rw [show ((c :: t ++ encAd ls).head? : Option Char) = some c from rfl] at hcon
    injection hcon with hc
    subst hc
    exact absurd hhex (by decide)

/-- Master lemma: on an encoded well-formed advertisement the parsing loop
computes the fold of `stepLine` and exits normally (no protocol error and
no panic), provided the fuel exceeds the number of lines. -/
theorem scanLoop_encAd (major : Version) (data : List Char) :
    ∀ (ls : List AdLine) (fuel i : Nat) (st : ScanState),
      data.drop i = encAd ls →
      (∀ l ∈ ls, wfLineB l = true) →
      ls.length < fuel →
      data.head? ≠ some '#' →
      scanLoop data major fuel i st = .ok (foldScan major st i ls) := by
  intro ls
  induction ls with
  | nil =>
    intro fuel i st hdrop hwf hfuel hh
    cases fuel with
    | zero => omega
    | succ f =>
      unfold scanLoop
      rw [if_neg (by
        have hle : data.length ≤ i := List.drop_eq_nil_iff.mp (by
          rw [hdrop]; rfl)
        omega)]
      rfl
  | cons l ls ih =>
    intro fuel i st hdrop hwf hfuel hh
    cases fuel with
    | zero => omega
    | succ f =>
      have hwl : wfLineB l = true := hwf l (List.mem_cons_self l ls)
      have hwls : ∀ x ∈ ls, wfLineB x = true := fun x hx => hwf x (List.mem_cons_of_mem l hx)
      have hencl : (encAdLine l).length = lineLen l := encAdLine_length l hwl
      have hlen_drop : data.length - i = (encAdLine l).length + (encAd ls).length := by
        have h1 : (data.drop i).length = data.length - i := List.length_drop i data
        rw [hdrop, encAd_cons, List.length_append] at h1
        omega
      have hL4 : 4 ≤ lineLen l := lineLen_ge_4 l
      have hi_le : i ≤ data.length := by
        by_contra hcon
        have : data.drop i = [] := List.drop_eq_nil_iff.mpr (by omega)
        rw [hdrop, encAd_cons] at this
        have := congrArg List.length this
        rw [List.length_append] at this
        simp at this
        omega
      have hi_lt : i < data.length := by omega
      have h4 : ¬(data.length < i + 4) := by omega
      have hdrop0 : data.drop i = encAdLine l ++ encAd ls := by rw [hdrop, encAd_cons]
      have hsub_pfx : sub data i (i + 4) = (encAdLine l).take 4 := by
        unfold sub
        rw [hdrop0, show i + 4 - i = 4 from by omega]
        exact List.take_append_of_le_length (by omega)
      obtain ⟨s0, hs0, hs0L⟩ : ∃ s0, parseHexGo (sub data i (i + 4)) = some s0 ∧
          (if s0 == 0 then (4 : Int) else s0) = ((lineLen l : Nat) : Int) := by
        cases l with
        | flush =>
          refine ⟨0, ?_, rfl⟩
          rw [hsub_pfx]
          rfl
        | data p =>
          refine ⟨((4 + p.length : Nat) : Int), ?_, ?_⟩
          · rw [hsub_pfx]
            have htk : (encAdLine (AdLine.data p)).take 4 = sprintf04x (4 + p.length) := by
              show (sprintf04x (4 + p.length) ++ p).take 4 = sprintf04x (4 + p.length)
              exact List.take_left' (sprintf04x_length _ (by
                have hb : p.length ≤ 65531 := by simpa [wfLineB] using hwl
                omega))
            rw [htk]
            exact parseHexGo_sprintf04x _ (by
              have hb : p.length ≤ 65531 := by simpa [wfLineB] using hwl
              omega)
          · rw [if_neg (by simp only [beq_iff_eq]; omega)]
            rfl
      have hdrop4 : data.drop (i + 4) = payloadOf l ++ encAd ls := by
        rw [← List.drop_drop, hdrop0]
        rw [List.drop_append_of_le_length (by omega)]
        congr 1
        cases l with
        | flush => rfl
        | data p =>
          show (sprintf04x (4 + p.length) ++ p).drop 4 = p
          have hsl : (sprintf04x (4 + p.length)).length = 4 := sprintf04x_length _ (by
            have hb : p.length ≤ 65531 := by simpa [wfLineB] using hwl
            omega)
          have hd := List.drop_left (sprintf04x (4 + p.length)) p
          rw [hsl] at hd
          exact hd
      have hdropL : data.drop (i + lineLen l) = encAd ls := by
        rw [show i + lineLen l = i + (lineLen l) from rfl, ← List.drop_drop, hdrop0, ← hencl]
        exact List.drop_left _ _
      unfold scanLoop
      rw [if_pos hi_lt, if_neg h4, hs0]
      dsimp only
      rw [hs0L]
      have hIntLe : ((i : Int) + ((lineLen l : Nat) : Int)).toNat = i + lineLen l := by omega
      rw [if_neg (by omega)]
      rw [if_neg (show ¬((data.head? == some '#') = true) from by
        simp only [beq_iff_eq]
        exact hh)]
      rw [if_neg (by omega)]
      rw [hIntLe]
      rw [scanLine_eq_stepLine data major i st l (encAd ls) hdrop4]
      exact ih f (i + lineLen l) (stepLine major st i l) hdropL hwls (by
        simp at hfuel
        omega) hh

/-- Each line contributes at least one wire byte. -/
theorem encAd_length_ge (ls : List AdLine) : ls.length ≤ (encAd ls).length := by
  induction ls with
  | nil => simp [encAd]
  | cons l ls ih =>
    rw [encAd_cons, List.length_append, List.length_cons]
    rcases encAdLine_head_hex l with ⟨c, t, hct, _⟩
    rw [hct]
    simp only [List.length_cons]
    omega

/-- The scan `changeRefs` performs over an encoded well-formed
advertisement is the fold of `stepLine` from the initial state. -/
theorem changeRefsScan_encAd (major : Version) (ls : List AdLine)
    (hwf : ∀ l ∈ ls, wfLineB l = true) :
    changeRefsScan (encAd ls) major = .ok (foldScan major initScan 0 ls) := by
  unfold changeRefsScan
  apply scanLoop_encAd
  · exact List.drop_zero _
  · exact hwf
  · have := encAd_length_ge ls
    omega
  · exact encAd_head_ne_sharp ls

/-! ## Component tracking through the fold -/

/-- The parsed name of a structured line, when it parses as a data line. -/
def nameOf? (l : AdLine) : Option (List Char) :=
  (lineName? (payloadOf l)).map (fun t => t.2)

/-- A version/hash/trimmed-name triple. -/
abbrev VTriple := Version × List Char × List Char

/-- The candidate-update rule of fetch.go:156, on triples. -/
def vstep (major : Version) (acc : VTriple) (t : VTriple) : VTriple :=
  if major.Contains t.1 && (t.1 == acc.1 || !acc.1.IsValid || acc.1.Less t.1) then t else acc

/-- The version-relevant projection of an advertisement. -/
def vlines (ls : List AdLine) : List VTriple := ls.filterMap lineVer?

/-- One step appends the line's parsed version (if any) to `versions`. -/
theorem stepLine_versions (major : Version) (st : ScanState) (i : Nat) (l : AdLine) :
    (stepLine major st i l).versions = st.versions ++
      (match lineVer? l with
       | none => []
       | some t => [t.1]) := by
  unfold stepLine lineVer?
  cases lineName? (payloadOf l) with
  | none => simp
  | some t =>
    obtain ⟨h, name⟩ := t
    dsimp only
    by_cases hsw : (startsWith refsHeadsV name || startsWith refsTagsV name) = true
    · rw [if_pos hsw, if_pos hsw]
      cases parseVersion ((trimSfx peelSfx name).drop
          (((trimSfx peelSfx name).findIdx? (fun c => c == 'v')).getD 0)) with
      | none =>
        simp only [apply_ite ScanState.versions, ite_self, List.append_nil]
      | some v =>
        simp only [apply_ite ScanState.versions, ite_self]
    · rw [if_neg hsw, if_neg hsw]
      simp only [apply_ite ScanState.versions, ite_self, List.append_nil]

/-- One step leaves the `HEAD` span alone unless the line is named `HEAD`,
in which case it records the line's span. -/
theorem stepLine_hline (major : Version) (st : ScanState) (i : Nat) (l : AdLine) :
    ((stepLine major st i l).hlinei, (stepLine major st i l).hlinej) =
      (if nameOf? l = some headN then (i, i + lineLen l)
       else (st.hlinei, st.hlinej)) := by
  unfold stepLine nameOf?
  cases lineName? (payloadOf l) with
  | none => simp
  | some t =>
    obtain ⟨h, name⟩ := t
    dsimp only
    simp only [Option.map_some', Option.some.injEq]
    by_cases hsw : (startsWith refsHeadsV name || startsWith refsTagsV name) = true
    · rw [if_pos hsw]
      cases parseVersion ((trimSfx peelSfx name).drop
          (((trimSfx peelSfx name).findIdx? (fun c => c == 'v')).getD 0)) with
      | none =>
        simp only [apply_ite ScanState.hlinei, apply_ite ScanState.hlinej, ite_self]
        split_ifs <;> rfl
      | some v =>
        simp only [apply_ite ScanState.hlinei, apply_ite ScanState.hlinej, ite_self]
        split_ifs <;> rfl
    · rw [if_neg hsw]
      simp only [apply_ite ScanState.hlinei, apply_ite ScanState.hlinej, ite_self]
      split_ifs <;> rfl

/-- Master analogue of `stepLine_hline`. -/
theorem stepLine_mline (major : Version) (st : ScanState) (i : Nat) (l : AdLine) :
    ((stepLine major st i l).mlinei, (stepLine major st i l).mlinej) =
      (if nameOf? l = some masterN then (i, i + lineLen l)
       else (st.mlinei, st.mlinej)) := by
  unfold stepLine nameOf?
  cases lineName? (payloadOf l) with
  | none => simp
  | some t =>
    obtain ⟨h, name⟩ := t
    dsimp only
    simp only [Option.map_some', Option.some.injEq]
    by_cases hsw : (startsWith refsHeadsV name || startsWith refsTagsV name) = true
    · rw [if_pos hsw]
      cases parseVersion ((trimSfx peelSfx name).drop
          (((trimSfx peelSfx name).findIdx? (fun c => c == 'v')).getD 0)) with
      | none =>
        simp only [apply_ite ScanState.mlinei, apply_ite ScanState.mlinej, ite_self]
        split_ifs <;> rfl
      | some v =>
        simp only [apply_ite ScanState.mlinei, apply_ite ScanState.mlinej, ite_self]
        split_ifs <;> rfl
    · rw [if_neg hsw]
      simp only [apply_ite ScanState.mlinei, apply_ite ScanState.mlinej, ite_self]
      split_ifs <;> rfl

/-- One step transforms the candidate triple by `vstep` over the line's
version reading (the `HEAD`/master records never touch it). -/
theorem stepLine_vref (major : Version) (st : ScanState) (i : Nat) (l : AdLine) :
    ((stepLine major st i l).vrefv, (stepLine major st i l).vrefhash,
      (stepLine major st i l).vrefname) =
      (match lineVer? l with
       | none => (st.vrefv, st.vrefhash, st.vrefname)
       | some t => vstep major (st.vrefv, st.vrefhash, st.vrefname) t) := by
  unfold stepLine lineVer? vstep
  cases lineName? (payloadOf l) with
  | none => rfl
  | some t =>
    obtain ⟨h, name⟩ := t
    dsimp only
    by_cases hsw : (startsWith refsHeadsV name || startsWith refsTagsV name) = true
    · rw [if_pos hsw, if_pos hsw]
      cases parseVersion ((trimSfx peelSfx name).drop
          (((trimSfx peelSfx name).findIdx? (fun c => c == 'v')).getD 0)) with
      | none =>
        simp only [apply_ite ScanState.vrefv, apply_ite ScanState.vrefhash,
          apply_ite ScanState.vrefname, ite_self]
      | some v =>
        simp only [apply_ite ScanState.vrefv, apply_ite ScanState.vrefhash,
          apply_ite ScanState.vrefname, ite_self]
        split_ifs <;> rfl
    · rw [if_neg hsw, if_neg hsw]
      simp only [apply_ite ScanState.vrefv, apply_ite ScanState.vrefhash,
        apply_ite ScanState.vrefname, ite_self]

/-- Total wire length of a line list. -/
def adLen (ls : List AdLine) : Nat := (ls.map lineLen).sum

/-- `encAd` has length `adLen` on well-formed lines. -/
theorem encAd_length (ls : List AdLine) (hwf : ∀ l ∈ ls, wfLineB l = true) :
    (encAd ls).length = adLen ls := by
  induction ls with
  | nil => rfl
  | cons l ls ih =>
    rw [encAd_cons, List.length_append,
      encAdLine_length l (hwf l (List.mem_cons_self l ls)),
      ih (fun x hx => hwf x (List.mem_cons_of_mem l hx))]
    rfl

/-- Folding over an append. -/
theorem foldScan_append (major : Version) (a b : List AdLine) :
    ∀ (st : ScanState) (i : Nat),
      foldScan major st i (a ++ b) = foldScan major (foldScan major st i a) (i + adLen a) b := by
  induction a with
  | nil => intro st i; simp [foldScan, adLen]
  | cons l ls ih =>
    intro st i
    show foldScan major (stepLine major st i l) (i + lineLen l) (ls ++ b) = _
    rw [ih]
    show _ = foldScan major (foldScan major (stepLine major st i l) (i + lineLen l) ls)
      (i + adLen (l :: ls)) b
    congr 1
    show i + lineLen l + adLen ls = i + adLen (l :: ls)
    unfold adLen
    simp [List.map_cons, List.sum_cons]
    omega

/-- The fold accumulates the discovered versions in stream order. -/
theorem foldScan_versions (major : Version) (ls : List AdLine) :
    ∀ (st : ScanState) (i : Nat),
      (foldScan major st i ls).versions = st.versions ++ versionsOf ls := by
  induction ls with
  | nil => intro st i; simp [foldScan, versionsOf]
  | cons l ls ih =>
    intro st i
    show (foldScan major (stepLine major st i l) (i + lineLen l) ls).versions = _
    rw [ih, stepLine_versions]
    unfold versionsOf
    rw [List.filterMap_cons]
    cases lineVer? l with
    | none => simp
    | some t => simp

/-- The fold leaves the `HEAD` span alone if no line is named `HEAD`. -/
theorem foldScan_hline_none (major : Version) (ls : List AdLine)
    (hno : ∀ l ∈ ls, nameOf? l ≠ some headN) :
    ∀ (st : ScanState) (i : Nat),
      (foldScan major st i ls).hlinei = st.hlinei ∧
      (foldScan major st i ls).hlinej = st.hlinej := by
  induction ls with
  | nil => intro st i; exact ⟨rfl, rfl⟩
  | cons l ls ih =>
    intro st i
    have hl := hno l (List.mem_cons_self l ls)
    have hstep := stepLine_hline major st i l
    rw [if_neg hl] at hstep
    have h1 : (stepLine major st i l).hlinei = st.hlinei := by
      have := congrArg Prod.fst hstep; simpa using this
    have h2 : (stepLine major st i l).hlinej = st.hlinej := by
      have := congrArg Prod.snd hstep; simpa using this
    have := ih (fun x hx => hno x (List.mem_cons_of_mem l hx))
      (stepLine major st i l) (i + lineLen l)
    refine ⟨?_, ?_⟩
    · show (foldScan major (stepLine major st i l) (i + lineLen l) ls).hlinei = st.hlinei
      rw [this.1, h1]
    · show (foldScan major (stepLine major st i l) (i + lineLen l) ls).hlinej = st.hlinej
      rw [this.2, h2]

/-- Master analogue of `foldScan_hline_none`. -/
theorem foldScan_mline_none (major : Version) (ls : List AdLine)
    (hno : ∀ l ∈ ls, nameOf? l ≠ some masterN) :
    ∀ (st : ScanState) (i : Nat),
      (foldScan major st i ls).mlinei = st.mlinei ∧
      (foldScan major st i ls).mlinej = st.mlinej := by
  induction ls with
  | nil => intro st i; exact ⟨rfl, rfl⟩
  | cons l ls ih =>
    intro st i
    have hl := hno l (List.mem_cons_self l ls)
    have hstep := stepLine_mline major st i l
    rw [if_neg hl] at hstep
    have h1 : (stepLine major st i l).mlinei = st.mlinei := by
      have := congrArg Prod.fst hstep; simpa using this
    have h2 : (stepLine major st i l).mlinej = st.mlinej := by
      have := congrArg Prod.snd hstep; simpa using this
    have := ih (fun x hx => hno x (List.mem_cons_of_mem l hx))
      (stepLine major st i l) (i + lineLen l)
    refine ⟨?_, ?_⟩
    · show (foldScan major (stepLine major st i l) (i + lineLen l) ls).mlinei = st.mlinei
      rw [this.1, h1]
    · show (foldScan major (stepLine major st i l) (i + lineLen l) ls).mlinej = st.mlinej
      rw [this.2, h2]

/-- The candidate triple after a fold is a fold of `vstep` over the
version projection, independent of offsets and of `HEAD`/master spans. -/
theorem foldScan_vref (major : Version) (ls : List AdLine) :
    ∀ (st : ScanState) (i : Nat),
      ((foldScan major st i ls).vrefv, (foldScan major st i ls).vrefhash,
        (foldScan major st i ls).vrefname) =
        (vlines ls).foldl (vstep major) (st.vrefv, st.vrefhash, st.vrefname) := by
  induction ls with
  | nil => intro st i; rfl
  | cons l ls ih =>
    intro st i
    show ((foldScan major (stepLine major st i l) (i + lineLen l) ls).vrefv,
      (foldScan major (stepLine major st i l) (i + lineLen l) ls).vrefhash,
      (foldScan major (stepLine major st i l) (i + lineLen l) ls).vrefname) = _
    rw [ih]
    have hstep := stepLine_vref major st i l
    unfold vlines
    rw [List.filterMap_cons]
    cases hv : lineVer? l with
    | none =>
      rw [hv] at hstep
      rw [hstep]
    | some t =>
      rw [hv] at hstep
      rw [hstep]
      rfl

/-- Discovered versions are the first components of the projection. -/
theorem versionsOf_eq_vlines (ls : List AdLine) :
    versionsOf ls = (vlines ls).map (fun t => t.1) := by
  unfold versionsOf vlines
  induction ls with
  | nil => rfl
  | cons l ls ih =>
    rw [List.filterMap_cons, List.filterMap_cons]
    cases lineVer? l with
    | none => exact ih
    | some t => simp [ih]

/-! ## Support for the rewrite claims: character search and version order -/

/-- The rewrite size bound implies the physical one. -/
theorem small_wf (l : AdLine) (h : smallLineB l = true) : wfLineB l = true := by
  cases l with
  | flush => rfl
  | data p =>
    simp only [smallLineB, decide_eq_true_eq] at h
    simp only [wfLineB, decide_eq_true_eq]
    omega

/-- Searching past a prefix with no matches. -/
theorem findIdx?_append_false {p : Char → Bool} (a : List Char)
    (h : ∀ c ∈ a, p c = false) :
    ∀ (b : List Char) (i : Nat),
      List.findIdx? p (a ++ b) i = List.findIdx? p b (i + a.length) := by
  induction a with
  | nil => intro b i; simp
  | cons c cs ih =>
    intro b i
    rw [List.cons_append, List.findIdx?_cons,
      if_neg (by simp [h c (List.mem_cons_self c cs)]),
      ih (fun x hx => h x (List.mem_cons_of_mem c hx)) b (i + 1)]
    congr 1
    simp only [List.length_cons]
    omega

/-- The start index of `findIdx?` is a plain offset. -/
theorem findIdx?_start {p : Char → Bool} :
    ∀ (l : List Char) (i : Nat),
      List.findIdx? p l i = (List.findIdx? p l).map (fun k => i + k) := by
  intro l
  induction l with
  | nil => intro i; simp
  | cons c cs ih =>
    intro i
    rw [List.findIdx?_cons, List.findIdx?_cons]
    by_cases hc : p c = true
    · rw [if_pos hc, if_pos hc]
      simp
    · rw [if_neg hc, if_neg hc, ih (i + 1), ih 1, Option.map_map]
      cases List.findIdx? p cs with
      | none => rfl
      | some k =>
        simp only [Option.map_some', Option.some.injEq, Function.comp]
        omega

/-- What a successful `findIdx?` says: the found index carries a match and
everything before it does not. -/
theorem findIdx?_some_spec {p : Char → Bool} :
    ∀ (l : List Char) (i j : Nat), List.findIdx? p l i = some j →
      i ≤ j ∧ ∃ h : j - i < l.length, p (l.get ⟨j - i, h⟩) = true ∧
        ∀ c ∈ l.take (j - i), p c = false := by
  intro l
  induction l with
  | nil => intro i j h; rw [List.findIdx?_nil] at h; exact absurd h (by simp)
  | cons c cs ih =>
    intro i j h
    rw [List.findIdx?_cons] at h
    by_cases hc : p c = true
    · rw [if_pos hc] at h
      have hj : j = i := by
        have := h
        simp only [Option.some.injEq] at this
        omega
      subst hj
      refine ⟨Nat.le_refl j, ?_⟩
      have h0 : j - j = 0 := by omega
      rw [h0]
      exact ⟨by simp, hc, by simp⟩
    · rw [if_neg hc] at h
      rw [Bool.not_eq_true] at hc
      obtain ⟨hij, hlt, hp, htake⟩ := ih (i + 1) j h
      have hji : j - i = (j - (i + 1)) + 1 := by omega
      refine ⟨by omega, ?_⟩
      rw [hji]
      refine ⟨by simp only [List.length_cons]; omega, ?_, ?_⟩
      · exact hp
      · rw [List.take_succ_cons]
        intro x hx
        rcases List.mem_cons.mp hx with hx | hx
        · rw [hx]; exact hc
        · exact htake x hx

/-- Unpacking `Version.Less` into arithmetic. -/
theorem Less_iff (a b : Version) : Version.Less a b = true ↔
    (a.Major < b.Major ∨ (a.Major = b.Major ∧
      (a.Minor < b.Minor ∨ (a.Minor = b.Minor ∧ a.Patch < b.Patch)))) := by
  unfold Version.Less
  split_ifs with h1 h2 <;>
    simp only [bne_iff_ne, ne_eq, not_not, decide_eq_true_eq] at * <;> omega

/-- `Version.Less` is transitive. -/
theorem Less_trans {a b c : Version} (h1 : Version.Less a b = true)
    (h2 : Version.Less b c = true) : Version.Less a c = true := by
  rw [Less_iff] at h1 h2 ⊢
  omega

/-- `Version.Less` compares only the numeric triple, so versions agreeing
on the unstable flag are totally ordered. -/
theorem Less_total (a b : Version) (hu : a.Unstable = b.Unstable) (hne : a ≠ b) :
    Version.Less a b = true ∨ Version.Less b a = true := by
  by_contra hcon
  push_neg at hcon
  obtain ⟨h1, h2⟩ := hcon
  simp only [ne_eq, Less_iff] at h1 h2
  have hf : a.Major = b.Major ∧ a.Minor = b.Minor ∧ a.Patch = b.Patch := by omega
  exact hne (by cases a; cases b; simp_all)

/-- Containment fixes the major and the unstable flag. -/
theorem Contains_fields {major v : Version} (h : major.Contains v = true) :
    major.Major = v.Major ∧ major.Unstable = v.Unstable := by
  unfold Version.Contains at h
  simp only [Bool.and_eq_true, beq_iff_eq] at h
  exact ⟨h.1.2, h.2⟩

/-- A version contained in a bucket with nonnegative major is not the
sentinel. -/
theorem contained_valid {major v : Version} (hmaj : 0 ≤ major.Major)
    (h : major.Contains v = true) : v.IsValid = true := by
  have hf := Contains_fields h
  simp only [Version.IsValid, bne_iff_ne, ne_eq, decide_eq_true_eq]
  intro heq
  rw [heq] at hf
  simp only [InvalidVersion] at hf
  omega

/-- Building a line that parses back: 40 space-free hash characters, a
space, a name free of newline and NUL, then a newline or NUL terminator. -/
theorem lineName?_mk (h name tail : List Char)
    (hlen : h.length = 40) (hsp : ∀ c ∈ h, (c == ' ') = false)
    (hname : ∀ c ∈ name, ((c == '\n') || (c == '\x00')) = false)
    (htail : tail.head? = some '\n' ∨ tail.head? = some '\x00') :
    lineName? (h ++ ' ' :: (name ++ tail)) = some (h, name) := by
  have hsp40 : List.findIdx? (fun c => c == ' ') (h ++ ' ' :: (name ++ tail)) = some 40 := by
    rw [findIdx?_append_false h hsp, List.findIdx?_cons,
      if_pos (show ((' ' == ' ') = true) from rfl), hlen]
  have hdrop : List.drop 41 (h ++ ' ' :: (name ++ tail)) = name ++ tail := by
    rw [show h ++ ' ' :: (name ++ tail) = (h ++ [' ']) ++ (name ++ tail) by simp]
    exact List.drop_left' (by rw [List.length_append, hlen]; rfl)
  have htake : List.take 40 (h ++ ' ' :: (name ++ tail)) = h := List.take_left' hlen
  obtain ⟨c0, t0, hc0, hpc0⟩ : ∃ c0 t0, tail = c0 :: t0 ∧
      ((c0 == '\n') || (c0 == '\x00')) = true := by
    cases tail with
    | nil => rcases htail with h | h <;> exact absurd h (by simp)
    | cons c0 t0 =>
      refine ⟨c0, t0, rfl, ?_⟩
      rcases htail with h | h <;>
        simp only [List.head?_cons, Option.some.injEq] at h <;> simp [h]
  have hstop : List.findIdx? (fun c => c == '\n' || c == '\x00') (name ++ tail) =
      some name.length := by
    rw [findIdx?_append_false name hname, hc0, List.findIdx?_cons, if_pos hpc0,
      Nat.zero_add]
  unfold lineName?
  rw [hsp40]
  dsimp only
  rw [if_neg (by decide), hdrop, hstop]
  dsimp only
  rw [htake, List.take_left]

/-- Inverting a successful name parse: the hash is the space-free
40-character prefix. -/
theorem lineName?_some (p : List Char) (h name : List Char)
    (heq : lineName? p = some (h, name)) :
    h = p.take 40 ∧ h.length = 40 ∧ (∀ c ∈ h, (c == ' ') = false) ∧ 40 < p.length := by
  unfold lineName? at heq
  cases hf : List.findIdx? (fun c => c == ' ') p with
  | none => rw [hf] at heq; exact absurd heq (by simp)
  | some hj =>
    rw [hf] at heq
    dsimp only at heq
    by_cases hj40 : (hj != 40) = true
    · rw [if_pos hj40] at heq; exact absurd heq (by simp)
    · rw [if_neg hj40] at heq
      have hj' : hj = 40 := by simpa using hj40
      subst hj'
      simp only [Option.some.injEq, Prod.mk.injEq] at heq
      obtain ⟨hspec1, hspec⟩ := findIdx?_some_spec p 0 40 hf
      obtain ⟨hlt, hpat, htake⟩ := hspec
      simp only [Nat.sub_zero] at hlt htake
      refine ⟨heq.1.symm, ?_, ?_, hlt⟩
      · rw [← heq.1, List.length_take]
        omega
      · rw [← heq.1]
        exact htake

/-- The hash recorded for a versioned reference is its line's space-free
40-character hash field. -/
theorem lineVer?_hash (l : AdLine) (v : Version) (h n2 : List Char)
    (he : lineVer? l = some (v, h, n2)) :
    h = (payloadOf l).take 40 ∧ h.length = 40 ∧ (∀ c ∈ h, (c == ' ') = false) := by
  unfold lineVer? at he
  cases hn : lineName? (payloadOf l) with
  | none => rw [hn] at he; exact absurd he (by simp)
  | some t =>
    obtain ⟨hh, name⟩ := t
    rw [hn] at he
    dsimp only at he
    by_cases hsw : (startsWith refsHeadsV name || startsWith refsTagsV name) = true
    · rw [if_pos hsw] at he
      cases hp : parseVersion ((trimSfx peelSfx name).drop
          (((trimSfx peelSfx name).findIdx? (fun c => c == 'v')).getD 0)) with
      | none => rw [hp] at he; exact absurd he (by simp)
      | some v0 =>
        rw [hp] at he
        simp only [Option.some.injEq, Prod.mk.injEq] at he
        obtain ⟨htk, hl40, hsp, _⟩ := lineName?_some (payloadOf l) hh name hn
        rw [he.2.1] at htk hl40 hsp
        exact ⟨htk, hl40, hsp⟩
    · rw [if_neg hsw] at he; exact absurd he (by simp)

/-- `adLen` distributes over append. -/
theorem adLen_append (a b : List AdLine) : adLen (a ++ b) = adLen a + adLen b := by
  simp [adLen]

/-- `adLen` on a cons. -/
theorem adLen_cons (l : AdLine) (ls : List AdLine) :
    adLen (l :: ls) = lineLen l + adLen ls := by
  simp [adLen]

/-- A nonempty advertisement occupies at least 4 bytes. -/
theorem adLen_pos (ls : List AdLine) (h : ls ≠ []) : 4 ≤ adLen ls := by
  cases ls with
  | nil => exact absurd rfl h
  | cons l t =>
    rw [adLen_cons]
    have := lineLen_ge_4 l
    omega

/-- Invariant of the candidate fold (fetch.go:156) from a contained
accumulator: the result stays contained, is the accumulator or a list
element, and never sits below the accumulator or any contained element. -/
theorem vfold_go (major : Version) (hmaj : 0 ≤ major.Major) :
    ∀ (ts : List VTriple) (acc : VTriple), major.Contains acc.1 = true →
      major.Contains (ts.foldl (vstep major) acc).1 = true ∧
      ((ts.foldl (vstep major) acc) = acc ∨ (ts.foldl (vstep major) acc) ∈ ts) ∧
      Version.Less (ts.foldl (vstep major) acc).1 acc.1 = false ∧
      ∀ t ∈ ts, major.Contains t.1 = true →
        Version.Less (ts.foldl (vstep major) acc).1 t.1 = false := by
  intro ts
  induction ts with
  | nil =>
    intro acc hacc
    simp only [List.foldl_nil]
    refine ⟨hacc, by simp, ?_, by simp⟩
    rw [Bool.eq_false_iff, ne_eq, Less_iff]
    omega
  | cons t ts ih =>
    intro acc hacc
    rw [List.foldl_cons]
    by_cases hct : major.Contains t.1 = true
    · by_cases hcond : (t.1 == acc.1 || !acc.1.IsValid || Version.Less acc.1 t.1) = true
      · have hv : vstep major acc t = t := by
          unfold vstep
          rw [if_pos (by rw [hct, Bool.true_and]; exact hcond)]
        rw [hv]
        obtain ⟨g1, g2, g3, g4⟩ := ih t hct
        have hval := contained_valid hmaj hacc
        have hstep : Version.Less (ts.foldl (vstep major) t).1 acc.1 = false := by
          have hcond2 : ((t.1 == acc.1) = true ∨ (!acc.1.IsValid) = true) ∨
              Version.Less acc.1 t.1 = true := by
            simp only [Bool.or_eq_true] at hcond
            exact hcond
          rcases hcond2 with (heq | hinv) | hlt
          · rw [beq_iff_eq] at heq
            rw [← heq]
            exact g3
          · rw [Bool.not_eq_true'] at hinv
            rw [hval] at hinv
            exact absurd hinv (by simp)
          · rw [Bool.eq_false_iff, ne_eq]
            intro habs
            have := Less_trans habs hlt
            rw [g3] at this
            exact absurd this (by simp)
        refine ⟨g1, ?_, hstep, ?_⟩
        · rcases g2 with g | g
          · rw [g]; exact Or.inr (List.mem_cons_self t ts)
          · exact Or.inr (List.mem_cons_of_mem t g)
        · intro x hx hcx
          rcases List.mem_cons.mp hx with hx | hx
          · rw [hx]; exact g3
          · exact g4 x hx hcx
      · have hv : vstep major acc t = acc := by
          unfold vstep
          rw [if_neg (by rw [hct, Bool.true_and]; exact hcond)]
        rw [hv]
        obtain ⟨g1, g2, g3, g4⟩ := ih acc hacc
        have hval := contained_valid hmaj hacc
        have htacc : Version.Less t.1 acc.1 = true := by
          simp only [Bool.or_eq_true, not_or] at hcond
          obtain ⟨⟨hne, _⟩, hnlt⟩ := hcond
          have hune : t.1 ≠ acc.1 := by
            intro habs
            rw [habs] at hne
            exact hne (by simp)
          have hu : t.1.Unstable = acc.1.Unstable := by
            have h1 := (Contains_fields hct).2
            have h2 := (Contains_fields hacc).2
            rw [← h1, ← h2]
          rcases Less_total t.1 acc.1 hu hune with h | h
          · exact h
          · exact absurd h hnlt
        refine ⟨g1, ?_, g3, ?_⟩
        · rcases g2 with g | g
          · exact Or.inl g
          · exact Or.inr (List.mem_cons_of_mem t g)
        · intro x hx hcx
          rcases List.mem_cons.mp hx with hx | hx
          · rw [hx]
            rw [Bool.eq_false_iff, ne_eq]
            intro habs
            have := Less_trans habs htacc
            rw [g3] at this
            exact absurd this (by simp)
          · exact g4 x hx hcx
    · have hv : vstep major acc t = acc := by
        unfold vstep
        rw [if_neg (by
          intro hcon
          rw [Bool.and_eq_true] at hcon
          exact hct hcon.1)]
      rw [hv]
      obtain ⟨g1, g2, g3, g4⟩ := ih acc hacc
      refine ⟨g1, ?_, g3, ?_⟩
      · rcases g2 with g | g
        · exact Or.inl g
        · exact Or.inr (List.mem_cons_of_mem t g)
      · intro x hx hcx
        rcases List.mem_cons.mp hx with hx | hx
        · rw [hx] at hcx; exact absurd hcx hct
        · exact g4 x hx hcx

/-- The candidate fold from the sentinel start: when some element is
contained in the requested bucket, the result is a contained element that
no contained element exceeds. -/
theorem vfold_max (major : Version) (hmaj : 0 ≤ major.Major) :
    ∀ (ts : List VTriple), (∃ t ∈ ts, major.Contains t.1 = true) →
      (ts.foldl (vstep major) (InvalidVersion, [], [])) ∈ ts ∧
      major.Contains (ts.foldl (vstep major) (InvalidVersion, [], [])).1 = true ∧
      ∀ t ∈ ts, major.Contains t.1 = true →
        Version.Less (ts.foldl (vstep major) (InvalidVersion, [], [])).1 t.1 = false := by
  intro ts
  induction ts with
  | nil =>
    intro hex
    obtain ⟨t, ht, _⟩ := hex
    exact absurd ht (List.not_mem_nil t)
  | cons t ts ih =>
    intro hex
    rw [List.foldl_cons]
    by_cases hct : major.Contains t.1 = true
    · have hv : vstep major (InvalidVersion, [], []) t = t := by
        unfold vstep
        rw [if_pos (by rw [hct, Bool.true_and]; simp [Version.IsValid])]
      rw [hv]
      obtain ⟨g1, g2, g3, g4⟩ := vfold_go major hmaj ts t hct
      refine ⟨?_, g1, ?_⟩
      · rcases g2 with g | g
        · rw [g]; exact List.mem_cons_self t ts
        · exact List.mem_cons_of_mem t g
      · intro x hx hcx
        rcases List.mem_cons.mp hx with hx | hx
        · rw [hx]; exact g3
        · exact g4 x hx hcx
    · have hv : vstep major (InvalidVersion, [], []) t = (InvalidVersion, [], []) := by
        unfold vstep
        rw [if_neg (by
          intro hcon
          rw [Bool.and_eq_true] at hcon
          exact hct hcon.1)]
      rw [hv]
      have hex2 : ∃ u ∈ ts, major.Contains u.1 = true := by
        obtain ⟨u, hu, hcu⟩ := hex
        rcases List.mem_cons.mp hu with h | h
        · rw [h] at hcu; exact absurd hcu hct
        · exact ⟨u, h, hcu⟩
      obtain ⟨g1, g2, g3⟩ := ih hex2
      refine ⟨List.mem_cons_of_mem t g1, g2, ?_⟩
      intro x hx hcx
      rcases List.mem_cons.mp hx with hx | hx
      · rw [hx] at hcx; exact absurd hcx hct
      · exact g3 x hx hcx

/-- The rewrite step on an encoded advertisement: given the `HEAD` span of
the line `hd` after the prefix `pre` and a master span that is absent or
covers the line `md` inside `post`, the output is the prefix, a fresh
`HEAD` line and a fresh `refs/heads/master` line both carrying the
candidate hash, and the remaining lines with the original master dropped. -/
theorem rewriteAd_encAd (pre post rest : List AdLine) (hd : List Char)
    (st : ScanState) (caps : List Char)
    (hwf : ∀ l ∈ pre ++ AdLine.data hd :: post, wfLineB l = true)
    (hhi : st.hlinei = adLen pre)
    (hhj : st.hlinej = adLen pre + lineLen (AdLine.data hd))
    (hmcase : (st.mlinei = 0 ∧ rest = post) ∨
      ∃ p1 md p2, post = p1 ++ AdLine.data md :: p2 ∧ rest = p1 ++ p2 ∧
        st.mlinei = adLen pre + lineLen (AdLine.data hd) + adLen p1 ∧
        st.mlinej = st.mlinei + lineLen (AdLine.data md)) :
    ∃ tail : List Char, (tail.head? = some '\n' ∨ tail.head? = some '\x00') ∧
      (startsWith refsHeadsPfx st.vrefname = false →
        tail = if caps.isEmpty then ['\n'] else '\x00' :: (caps ++ ['\n'])) ∧
      rewriteAd (encAd (pre ++ AdLine.data hd :: post)) st caps =
        .ok (encAd (pre ++
          AdLine.data (st.vrefhash ++ ' ' :: (headN ++ tail)) ::
          AdLine.data (st.vrefhash ++ ' ' :: (masterN ++ ['\n'])) :: rest)) st.versions := by
  have hwf_pre : ∀ l ∈ pre, wfLineB l = true :=
    fun l hl => hwf l (List.mem_append_left _ hl)
  have hwf_hd : wfLineB (AdLine.data hd) = true :=
    hwf _ (List.mem_append_right _ (List.mem_cons_self _ _))
  have hwf_post : ∀ l ∈ post, wfLineB l = true :=
    fun l hl => hwf l (List.mem_append_right _ (List.mem_cons_of_mem _ hl))
  have hlen_pre : (encAd pre).length = adLen pre := encAd_length pre hwf_pre
  have hlen_hd : (encAdLine (AdLine.data hd)).length = lineLen (AdLine.data hd) :=
    encAdLine_length _ hwf_hd
  have htake_pre :
      (encAd (pre ++ AdLine.data hd :: post)).take (adLen pre) = encAd pre := by
    rw [encAd_append, encAd_cons]
    exact List.take_left' hlen_pre
  have hdrop_hd :
      (encAd (pre ++ AdLine.data hd :: post)).drop (adLen pre + lineLen (AdLine.data hd)) =
        encAd post := by
    rw [encAd_append, encAd_cons, ← List.append_assoc]
    apply List.drop_left'
    rw [List.length_append, hlen_pre, hlen_hd]
  obtain ⟨tail, htail, htag, hline1⟩ :
      ∃ tail, (tail.head? = some '\n' ∨ tail.head? = some '\x00') ∧
        (startsWith refsHeadsPfx st.vrefname = false →
          tail = if caps.isEmpty then ['\n'] else '\x00' :: (caps ++ ['\n'])) ∧
        (if startsWith refsHeadsPfx st.vrefname then
          if caps.isEmpty then
            st.vrefhash ++ (" HEAD\x00symref=HEAD:".toList) ++ st.vrefname ++ ['\n']
          else
            st.vrefhash ++ (" HEAD\x00symref=HEAD:".toList) ++ st.vrefname ++ [' '] ++ caps ++ ['\n']
        else
          if caps.isEmpty then st.vrefhash ++ (" HEAD\n".toList)
          else st.vrefhash ++ (" HEAD\x00".toList) ++ caps ++ ['\n'])
        = st.vrefhash ++ ' ' :: (headN ++ tail) := by
    by_cases h1 : startsWith refsHeadsPfx st.vrefname = true
    · by_cases h2 : caps.isEmpty = true
      · refine ⟨'\x00' :: (("symref=HEAD:".toList) ++ (st.vrefname ++ ['\n'])),
          Or.inr rfl, ?_, ?_⟩
        · intro hf
          rw [hf] at h1
          exact absurd h1 (by simp)
        rw [if_pos h1, if_pos h2]
        simp only [List.append_assoc]
        rfl
      · refine ⟨'\x00' :: (("symref=HEAD:".toList) ++
            (st.vrefname ++ ([' '] ++ (caps ++ ['\n'])))), Or.inr rfl, ?_, ?_⟩
        · intro hf
          rw [hf] at h1
          exact absurd h1 (by simp)
        rw [if_pos h1, if_neg h2]
        simp only [List.append_assoc]
        rfl
    · by_cases h2 : caps.isEmpty = true
      · refine ⟨['\n'], Or.inl rfl, fun _ => by rw [if_pos h2], ?_⟩
        rw [if_neg h1, if_pos h2]
        rfl
      · refine ⟨'\x00' :: (caps ++ ['\n']), Or.inr rfl, fun _ => by rw [if_neg h2], ?_⟩
        rw [if_neg h1, if_neg h2]
        simp only [List.append_assoc]
        rfl
  refine ⟨tail, htail, htag, ?_⟩
  unfold rewriteAd
  dsimp only
  rw [hline1]
  rw [show st.vrefhash ++ (" refs/heads/master\n".toList) =
    st.vrefhash ++ ' ' :: (masterN ++ ['\n']) from rfl]
  rw [hhi, hhj]
  rcases hmcase with ⟨hm0, hrest⟩ | ⟨p1, md, p2, hpost, hrest, hmi, hmj⟩
  · rw [hm0, if_neg (by omega : ¬ (0 < 0)), hrest, htake_pre, hdrop_hd]
    congr 1
    rw [encAd_append, encAd_cons, encAd_cons]
    simp only [encAdLine, List.append_assoc]
  · subst hpost
    subst hrest
    have hlen_p1 : (encAd p1).length = adLen p1 :=
      encAd_length p1 (fun l hl => hwf_post l (List.mem_append_left _ hl))
    have hlen_md : (encAdLine (AdLine.data md)).length = lineLen (AdLine.data md) :=
      encAdLine_length _ (hwf_post _ (List.mem_append_right _ (List.mem_cons_self _ _)))
    have hlen_data : (encAd (pre ++ AdLine.data hd :: (p1 ++ AdLine.data md :: p2))).length =
        adLen pre + lineLen (AdLine.data hd) + adLen p1 + lineLen (AdLine.data md) +
          adLen p2 := by
      rw [encAd_length _ hwf, adLen_append, adLen_cons, adLen_append, adLen_cons]
      omega
    have hl4 : 4 ≤ lineLen (AdLine.data hd) := lineLen_ge_4 _
    rw [if_pos (by rw [hmi]; omega)]
    rw [if_neg (show ¬((decide (st.mlinei < adLen pre + lineLen (AdLine.data hd)) ||
        decide ((encAd (pre ++ AdLine.data hd :: (p1 ++ AdLine.data md :: p2))).length < st.mlinei) ||
        decide ((encAd (pre ++ AdLine.data hd :: (p1 ++ AdLine.data md :: p2))).length < st.mlinej)) = true) from by
      simp only [Bool.or_eq_true, decide_eq_true_eq, not_or, not_lt]
      refine ⟨⟨by rw [hmi]; omega, ?_⟩, ?_⟩
      · rw [hlen_data, hmi]; omega
      · rw [hlen_data, hmj, hmi]; omega)]
    have hsub_p1 : sub (encAd (pre ++ AdLine.data hd :: (p1 ++ AdLine.data md :: p2)))
        (adLen pre + lineLen (AdLine.data hd)) st.mlinei = encAd p1 := by
      unfold sub
      rw [hdrop_hd, encAd_append, encAd_cons]
      rw [show st.mlinei - (adLen pre + lineLen (AdLine.data hd)) = adLen p1 from by
        rw [hmi]; omega]
      exact List.take_left' hlen_p1
    have hdrop_md : (encAd (pre ++ AdLine.data hd :: (p1 ++ AdLine.data md :: p2))).drop
        st.mlinej = encAd p2 := by
      rw [encAd_append, encAd_cons, encAd_append, encAd_cons,
        show encAd pre ++ (encAdLine (AdLine.data hd) ++
            (encAd p1 ++ (encAdLine (AdLine.data md) ++ encAd p2))) =
          (encAd pre ++ encAdLine (AdLine.data hd) ++ encAd p1 ++
            encAdLine (AdLine.data md)) ++ encAd p2 from by
          simp [List.append_assoc]]
      apply List.drop_left'
      rw [List.length_append, List.length_append, List.length_append,
        hlen_pre, hlen_hd, hlen_p1, hlen_md, hmj, hmi]
    rw [htake_pre, hsub_p1, hdrop_md]
    congr 1
    rw [encAd_append, encAd_cons, encAd_cons, encAd_append]
    simp only [encAdLine, List.append_assoc]

/-- A list with no matches has no found index. -/
theorem findIdx?_none_of_forall {p : Char → Bool} (l : List Char)
    (h : ∀ c ∈ l, p c = false) : List.findIdx? p l = none := by
  rw [List.findIdx?_eq_none_iff]
  intro x hx
  simp [h x hx]

/-- A line whose parsed name is not `refs/heads/v*` or `refs/tags/v*` has
no version reading. -/
theorem lineVer?_none_of_name (l : AdLine) (name : List Char)
    (h : nameOf? l = some name)
    (hns : (startsWith refsHeadsV name || startsWith refsTagsV name) = false) :
    lineVer? l = none := by
  unfold nameOf? at h
  unfold lineVer?
  cases hn : lineName? (payloadOf l) with
  | none => rfl
  | some t =>
    obtain ⟨hh, nm⟩ := t
    rw [hn] at h
    simp only [Option.map_some', Option.some.injEq] at h
    dsimp only
    rw [if_neg (by
      intro hcon
      rw [h, hns] at hcon
      exact absurd hcon (by simp))]

/-- `vlines` distributes over append. -/
theorem vlines_append (a b : List AdLine) : vlines (a ++ b) = vlines a ++ vlines b := by
  unfold vlines
  exact List.filterMap_append a b lineVer?

/-- A line with no version reading contributes nothing to `vlines`. -/
theorem vlines_cons_none (l : AdLine) (ls : List AdLine) (h : lineVer? l = none) :
    vlines (l :: ls) = vlines ls := by
  unfold vlines
  exact List.filterMap_cons_none h

/-! ## `strings.Replace(s, "symref=", "oldref=", -1)` is idempotent

The replacement scans left to right and never rescans emitted output; its
output contains no occurrence of `symref=` (no character of `oldref=` can
start one, and a replacement block breaks any occurrence spanning it), so
a second replacement is the identity.  This backs the capability
re-extraction argument of the idempotence claim. -/

/-- Unfolding equation of `startsWith` on two conses. -/
theorem startsWith_cons (p c : Char) (ps cs : List Char) :
    startsWith (p :: ps) (c :: cs) = ((p == c) && startsWith ps cs) := rfl

/-- A matched pattern is no longer than the text. -/
theorem startsWith_length : ∀ (pat s : List Char), startsWith pat s = true →
    pat.length ≤ s.length := by
  intro pat
  induction pat with
  | nil => intro s _; simp
  | cons p ps ih =>
    intro s h
    cases s with
    | nil => exact absurd h (by simp [startsWith])
    | cons c cs =>
      rw [startsWith_cons, Bool.and_eq_true] at h
      have := ih cs h.2
      simp only [List.length_cons]
      omega

/-- `symref=` cannot start at a character other than `s`. -/
theorem startsWith_sym_ne {c : Char} (h : c ≠ 's') (x : List Char) :
    startsWith (("symref=").toList) (c :: x) = false := by
  rw [show ("symref=").toList = 's' :: (("ymref=").toList) from rfl, startsWith_cons,
    beq_eq_false_iff_ne.mpr (Ne.symm h), Bool.false_and]

/-- Unfolding equation of the replacement worker on a cons. -/
theorem replaceSymrefAux_cons (fuel : Nat) (c : Char) (cs : List Char) :
    replaceSymrefAux (fuel + 1) (c :: cs) =
      if startsWith (("symref=").toList) (c :: cs) then
        (("oldref=").toList) ++ replaceSymrefAux fuel (cs.drop 6)
      else c :: replaceSymrefAux fuel cs := rfl

/-- The replacement preserves length (`symref=` and `oldref=` are both
seven bytes). -/
theorem replaceSymrefAux_length : ∀ (fuel : Nat) (s : List Char),
    (replaceSymrefAux fuel s).length = s.length := by
  intro fuel
  induction fuel with
  | zero => intro s; rfl
  | succ fuel ih =>
    intro s
    cases s with
    | nil => rfl
    | cons c cs =>
      rw [replaceSymrefAux_cons]
      by_cases hsw : startsWith (("symref=").toList) (c :: cs) = true
      · rw [if_pos hsw, List.length_append, ih, List.length_drop]
        have h7 := startsWith_length _ _ hsw
        simp only [List.length_cons] at h7 ⊢
        have hlen7 : (("oldref=").toList).length = 7 := rfl
        have hlen7s : (("symref=").toList).length = 7 := rfl
        omega
      · rw [if_neg hsw]
        simp only [List.length_cons, ih]

/-- Occurrence scan for `symref=`. -/
def hasSym : List Char → Bool
  | [] => false
  | c :: cs => startsWith (("symref=").toList) (c :: cs) || hasSym cs

/-- Unfolding equation of `hasSym` on a cons. -/
theorem hasSym_cons (c : Char) (cs : List Char) :
    hasSym (c :: cs) = (startsWith (("symref=").toList) (c :: cs) || hasSym cs) := rfl

/-- No occurrence of `symref=` starts inside an `oldref=` block. -/
theorem hasSym_oldref (y : List Char) :
    hasSym ((("oldref=").toList) ++ y) = hasSym y := by
  show hasSym ('o' :: 'l' :: 'd' :: 'r' :: 'e' :: 'f' :: '=' :: y) = hasSym y
  rw [hasSym_cons, startsWith_sym_ne (by decide) _, Bool.false_or,
    hasSym_cons, startsWith_sym_ne (by decide) _, Bool.false_or,
    hasSym_cons, startsWith_sym_ne (by decide) _, Bool.false_or,
    hasSym_cons, startsWith_sym_ne (by decide) _, Bool.false_or,
    hasSym_cons, startsWith_sym_ne (by decide) _, Bool.false_or,
    hasSym_cons, startsWith_sym_ne (by decide) _, Bool.false_or,
    hasSym_cons, startsWith_sym_ne (by decide) _, Bool.false_or]

/-- On a text with no occurrence the replacement is the identity, for any
fuel. -/
theorem noSym_fix : ∀ (s : List Char), hasSym s = false →
    ∀ fuel, replaceSymrefAux fuel s = s := by
  intro s
  induction s with
  | nil => intro _ fuel; cases fuel <;> rfl
  | cons c cs ih =>
    intro h fuel
    rw [hasSym_cons, Bool.or_eq_false_iff] at h
    cases fuel with
    | zero => rfl
    | succ fuel =>
      rw [replaceSymrefAux_cons, if_neg (by rw [h.1]; simp), ih h.2 fuel]

/-- A pattern containing no `o` that matches the replacement output also
matches the input (replacement blocks start with `o`; as-is characters are
preserved in order). -/
theorem startsWith_replaceAux :
    ∀ (s : List Char) (fuel : Nat) (P : List Char),
      (∀ c ∈ P, (c == 'o') = false) →
      startsWith P (replaceSymrefAux fuel s) = true → startsWith P s = true := by
  intro s
  induction s with
  | nil =>
    intro fuel P hP h
    cases fuel with
    | zero => exact h
    | succ fuel => exact h
  | cons c cs ih =>
    intro fuel P hP h
    cases fuel with
    | zero => exact h
    | succ fuel =>
      rw [replaceSymrefAux_cons] at h
      by_cases hsw : startsWith (("symref=").toList) (c :: cs) = true
      · rw [if_pos hsw] at h
        cases P with
        | nil => rfl
        | cons p ps =>
          exfalso
          rw [show (("oldref=").toList) ++ replaceSymrefAux fuel (cs.drop 6) =
            'o' :: ((("ldref=").toList) ++ replaceSymrefAux fuel (cs.drop 6)) from rfl,
            startsWith_cons, Bool.and_eq_true] at h
          exact absurd h.1 (by simp [hP p (List.mem_cons_self p ps)])
      · rw [if_neg hsw] at h
        cases P with
        | nil => rfl
        | cons p ps =>
          rw [startsWith_cons, Bool.and_eq_true] at h
          rw [startsWith_cons, Bool.and_eq_true]
          exact ⟨h.1, ih fuel ps (fun x hx => hP x (List.mem_cons_of_mem p hx)) h.2⟩

/-- With enough fuel, the replacement output has no occurrence left. -/
theorem replaceAux_noSym :
    ∀ (fuel : Nat) (s : List Char), s.length ≤ fuel →
      hasSym (replaceSymrefAux fuel s) = false := by
  intro fuel
  induction fuel with
  | zero =>
    intro s hs
    cases s with
    | nil => rfl
    | cons c cs => simp at hs
  | succ fuel ih =>
    intro s hs
    cases s with
    | nil => rfl
    | cons c cs =>
      rw [replaceSymrefAux_cons]
      by_cases hsw : startsWith (("symref=").toList) (c :: cs) = true
      · rw [if_pos hsw, hasSym_oldref]
        apply ih
        rw [List.length_drop]
        simp only [List.length_cons] at hs
        omega
      · rw [if_neg hsw, hasSym_cons]
        have hrest : hasSym (replaceSymrefAux fuel cs) = false := by
          apply ih
          simp only [List.length_cons] at hs
          omega
        rw [hrest, Bool.or_false]
        by_cases hc : c = 's'
        · subst hc
          cases hx : startsWith (("symref=").toList) ('s' :: replaceSymrefAux fuel cs) with
          | false => rfl
          | true =>
            exfalso
            rw [show ("symref=").toList = 's' :: (("ymref=").toList) from rfl,
              startsWith_cons, Bool.and_eq_true] at hx
            have h2 := startsWith_replaceAux cs fuel (("ymref=").toList)
              (by decide) hx.2
            exact hsw (by
              rw [show ("symref=").toList = 's' :: (("ymref=").toList) from rfl,
                startsWith_cons, Bool.and_eq_true]
              exact ⟨by simp, h2⟩)
        · exact startsWith_sym_ne hc _

/-- `strings.Replace(·, "symref=", "oldref=", -1)` is idempotent. -/
theorem replaceSymref_idem (s : List Char) :
    replaceSymref (replaceSymref s) = replaceSymref s := by
  unfold replaceSymref
  exact noSym_fix _ (replaceAux_noSym s.length s (Nat.le_refl _)) _

/-- The capability string `changeRefs` extracts from a recorded `HEAD`
line with payload `hd` (fetch.go 184-187): the text between the first NUL
and the final newline, with `symref=` keys rewritten to `oldref=`. -/
def capsOf (hd : List Char) : List Char :=
  match List.findIdx? (fun c => c == '\x00') hd with
  | none => []
  | some k => replaceSymref ((hd.drop (k + 1)).take (hd.length - 1 - (k + 1)))

/-- `capsOf` on a NUL-free line. -/
theorem capsOf_none (s : List Char)
    (h : List.findIdx? (fun c => c == '\x00') s = none) : capsOf s = [] := by
  unfold capsOf
  rw [h]

/-- `capsOf` when the first NUL sits at index `n`. -/
theorem capsOf_some (s : List Char) (n : Nat)
    (h : List.findIdx? (fun c => c == '\x00') s = some n) :
    capsOf s = replaceSymref ((s.drop (n + 1)).take (s.length - 1 - (n + 1))) := by
  unfold capsOf
  rw [h]

/-- Extracted capabilities are already fully rewritten. -/
theorem replaceSymref_capsOf (hd : List Char) :
    replaceSymref (capsOf hd) = capsOf hd := by
  unfold capsOf
  cases List.findIdx? (fun c => c == '\x00') hd with
  | none => rfl
  | some k => exact replaceSymref_idem _

/-- Extracted capabilities are no longer than the line. -/
theorem capsOf_length_le (hd : List Char) : (capsOf hd).length ≤ hd.length := by
  unfold capsOf
  cases List.findIdx? (fun c => c == '\x00') hd with
  | none => simp
  | some k =>
    dsimp only
    rw [show (replaceSymref ((hd.drop (k + 1)).take (hd.length - 1 - (k + 1)))).length =
      ((hd.drop (k + 1)).take (hd.length - 1 - (k + 1))).length from
      replaceSymrefAux_length _ _]
    rw [List.length_take, List.length_drop]
    omega

/-- The full run of `changeRefs` on a structured advertisement whose
`HEAD` line `hd` sits after a nonempty prefix, is unique and newline
terminated, with the master line either absent or the designated `md`
inside `post`, and with at least one contained versioned reference: the
run succeeds and returns the prefix, a fresh `HEAD` line and a fresh
master line carrying the candidate hash of the fold of fetch.go:156, and
the remaining lines.  When the `HEAD` line has no NUL byte (no
capabilities) and the candidate is not a branch, the fresh `HEAD` line is
exactly `hash, space, HEAD, newline`. -/
theorem changeRefs_structured (pre post rest : List AdLine) (hd : List Char)
    (major : Version)
    (hmaj : 0 ≤ major.Major)
    (hsmall : ∀ l ∈ pre ++ AdLine.data hd :: post, smallLineB l = true)
    (hpre : pre ≠ [])
    (hhd : nameOf? (AdLine.data hd) = some headN)
    (hlast : hd.getLast? = some '\n')
    (hpostH : ∀ l ∈ post, nameOf? l ≠ some headN)
    (hmrest : (rest = post ∧ ∀ l ∈ pre ++ post, nameOf? l ≠ some masterN) ∨
      ∃ p1 md p2, post = p1 ++ AdLine.data md :: p2 ∧ rest = p1 ++ p2 ∧
        nameOf? (AdLine.data md) = some masterN ∧
        ∀ l ∈ pre ++ (p1 ++ p2), nameOf? l ≠ some masterN)
    (hex : ∃ v ∈ versionsOf (pre ++ AdLine.data hd :: post), major.Contains v = true) :
    ∃ tail : List Char,
      (tail.head? = some '\n' ∨ tail.head? = some '\x00') ∧
      changeRefs (encAd (pre ++ AdLine.data hd :: post)) major =
        ChangeOut.ok (encAd (pre ++
          AdLine.data (((vlines (pre ++ AdLine.data hd :: post)).foldl (vstep major) (InvalidVersion, [], [])).2.1 ++ ' ' :: (headN ++ tail)) ::
          AdLine.data (((vlines (pre ++ AdLine.data hd :: post)).foldl (vstep major) (InvalidVersion, [], [])).2.1 ++ ' ' :: (masterN ++ ['\n'])) :: rest))
          (versionsOf (pre ++ AdLine.data hd :: post)) ∧
      (startsWith refsHeadsPfx ((vlines (pre ++ AdLine.data hd :: post)).foldl (vstep major) (InvalidVersion, [], [])).2.2 = false →
        tail = if capsOf hd = [] then ['\n'] else '\x00' :: (capsOf hd ++ ['\n'])) := by
  have hwf : ∀ l ∈ pre ++ AdLine.data hd :: post, wfLineB l = true :=
    fun l hl => small_wf l (hsmall l hl)
  have hwf_pre : ∀ l ∈ pre, wfLineB l = true :=
    fun l hl => hwf l (List.mem_append_left _ hl)
  have hwf_hd : wfLineB (AdLine.data hd) = true :=
    hwf _ (List.mem_append_right _ (List.mem_cons_self _ _))
  have hlen_pre : (encAd pre).length = adLen pre := encAd_length pre hwf_pre
  have hlen_hd : (encAdLine (AdLine.data hd)).length = lineLen (AdLine.data hd) :=
    encAdLine_length _ hwf_hd
  have hll : lineLen (AdLine.data hd) = 4 + hd.length := rfl
  have hap : 4 ≤ adLen pre := adLen_pos pre hpre
  set st := foldScan major initScan 0 (pre ++ AdLine.data hd :: post) with hstdef
  have hscan : changeRefsScan (encAd (pre ++ AdLine.data hd :: post)) major = .ok st :=
    changeRefsScan_encAd major _ hwf
  have hsplit : st = foldScan major
      (stepLine major (foldScan major initScan 0 pre) (adLen pre) (AdLine.data hd))
      (adLen pre + lineLen (AdLine.data hd)) post := by
    rw [hstdef, foldScan_append, Nat.zero_add]
    rfl
  have hhd_ne_m : nameOf? (AdLine.data hd) ≠ some masterN := by
    rw [hhd]
    intro hcon
    simp only [Option.some.injEq] at hcon
    exact absurd hcon (by decide)
  have hHpair := stepLine_hline major (foldScan major initScan 0 pre) (adLen pre)
    (AdLine.data hd)
  rw [if_pos hhd] at hHpair
  have hhd_i : (stepLine major (foldScan major initScan 0 pre) (adLen pre)
      (AdLine.data hd)).hlinei = adLen pre := by
    have := congrArg Prod.fst hHpair
    simpa using this
  have hhd_j : (stepLine major (foldScan major initScan 0 pre) (adLen pre)
      (AdLine.data hd)).hlinej = adLen pre + lineLen (AdLine.data hd) := by
    have := congrArg Prod.snd hHpair
    simpa using this
  have hpostHline := foldScan_hline_none major post hpostH
    (stepLine major (foldScan major initScan 0 pre) (adLen pre) (AdLine.data hd))
    (adLen pre + lineLen (AdLine.data hd))
  have hsti : st.hlinei = adLen pre := by
    rw [hsplit, hpostHline.1, hhd_i]
  have hstj : st.hlinej = adLen pre + lineLen (AdLine.data hd) := by
    rw [hsplit, hpostHline.2, hhd_j]
  have hstv : st.versions = versionsOf (pre ++ AdLine.data hd :: post) := by
    rw [hstdef, foldScan_versions]
    simp [initScan]
  have hstvr : (st.vrefv, st.vrefhash, st.vrefname) = ((vlines (pre ++ AdLine.data hd :: post)).foldl (vstep major) (InvalidVersion, [], [])) := by
    rw [hstdef]
    exact foldScan_vref major (pre ++ AdLine.data hd :: post) initScan 0
  have hexT : ∃ t ∈ vlines (pre ++ AdLine.data hd :: post), major.Contains t.1 = true := by
    obtain ⟨v, hv, hcv⟩ := hex
    rw [versionsOf_eq_vlines] at hv
    obtain ⟨t, ht, hteq⟩ := List.mem_map.mp hv
    exact ⟨t, ht, by rw [hteq]; exact hcv⟩
  obtain ⟨hbm, hbc, hbmax⟩ := vfold_max major hmaj
    (vlines (pre ++ AdLine.data hd :: post)) hexT
  have hsthash : st.vrefhash = ((vlines (pre ++ AdLine.data hd :: post)).foldl (vstep major) (InvalidVersion, [], [])).2.1 := by
    have := congrArg (fun t => t.2.1) hstvr
    simpa using this
  have hstname : st.vrefname = ((vlines (pre ++ AdLine.data hd :: post)).foldl (vstep major) (InvalidVersion, [], [])).2.2 := by
    have := congrArg (fun t => t.2.2) hstvr
    simpa using this
  obtain ⟨l0, hl0mem, hl0⟩ := List.mem_filterMap.mp hbm
  obtain ⟨-, hhlen, hhsp⟩ := lineVer?_hash l0 _ _ _ hl0
  have hsthashlen : st.vrefhash.length = 40 := by rw [hsthash]; exact hhlen
  have hdlen : (encAd (pre ++ AdLine.data hd :: post)).length =
      adLen pre + lineLen (AdLine.data hd) + adLen post := by
    rw [encAd_length _ hwf, adLen_append, adLen_cons]
    omega
  have hsubhd : sub (encAd (pre ++ AdLine.data hd :: post)) st.hlinei st.hlinej =
      encAdLine (AdLine.data hd) := by
    rw [hsti, hstj]
    unfold sub
    rw [show (encAd (pre ++ AdLine.data hd :: post)).drop (adLen pre) =
        encAdLine (AdLine.data hd) ++ encAd post from by
      rw [encAd_append, encAd_cons]
      exact List.drop_left' hlen_pre]
    rw [show adLen pre + lineLen (AdLine.data hd) - adLen pre =
      lineLen (AdLine.data hd) from by omega]
    exact List.take_left' hlen_hd
  have hsm : hd.length ≤ 16000 := by
    have := hsmall (AdLine.data hd) (List.mem_append_right _ (List.mem_cons_self _ _))
    simp only [smallLineB, decide_eq_true_eq] at this
    exact this
  have hpfx_no : ∀ c ∈ sprintf04x (4 + hd.length), (c == '\x00') = false := by
    intro c hc
    have hhex := sprintf04x_all_hex (4 + hd.length) c hc
    cases hcc : (c == '\x00') with
    | false => rfl
    | true =>
      have hc0 : c = '\x00' := by simpa using hcc
      rw [hc0] at hhex
      exact absurd hhex (by decide)
  have hpfx_len : (sprintf04x (4 + hd.length)).length = 4 :=
    sprintf04x_length _ (by omega)
  have hnulsplit : List.findIdx? (fun c => c == '\x00') (encAdLine (AdLine.data hd)) =
      (List.findIdx? (fun c => c == '\x00') hd).map (fun k => 4 + k) := by
    show List.findIdx? (fun c => c == '\x00') (sprintf04x (4 + hd.length) ++ hd) = _
    rw [findIdx?_append_false _ hpfx_no, hpfx_len, findIdx?_start hd (0 + 4)]
  have hdata4 : (encAd (pre ++ AdLine.data hd :: post)).drop (adLen pre + 4) =
      hd ++ encAd post := by
    rw [show encAd (pre ++ AdLine.data hd :: post) =
        (encAd pre ++ sprintf04x (4 + hd.length)) ++ (hd ++ encAd post) from by
      rw [encAd_append, encAd_cons]
      show encAd pre ++ ((sprintf04x (4 + hd.length) ++ hd) ++ encAd post) = _
      simp [List.append_assoc]]
    exact List.drop_left' (by rw [List.length_append, hlen_pre, hpfx_len])
  have hchg : changeRefs (encAd (pre ++ AdLine.data hd :: post)) major =
      rewriteAd (encAd (pre ++ AdLine.data hd :: post)) st (capsOf hd) := by
    unfold changeRefs
    rw [hscan]
    dsimp only
    rw [if_neg (by
      intro hc
      rw [Bool.and_eq_true] at hc
      have hemp := hc.1
      rw [hstv, List.isEmpty_iff] at hemp
      obtain ⟨v, hv, -⟩ := hex
      rw [hemp] at hv
      exact absurd hv (List.not_mem_nil v))]
    rw [if_neg (by
      intro hc
      rcases Bool.or_eq_true _ _ |>.mp hc with hc | hc
      · rw [beq_iff_eq, hsti] at hc
        omega
      · rw [List.isEmpty_iff] at hc
        rw [hc] at hsthashlen
        exact absurd hsthashlen (by decide))]
    rw [if_neg (by
      simp only [Bool.or_eq_true, decide_eq_true_eq, not_or, not_lt]
      refine ⟨⟨?_, ?_⟩, ?_⟩ <;> omega)]
    rw [hsubhd, hnulsplit]
    cases hnul : List.findIdx? (fun c => c == '\x00') hd with
    | none =>
      simp only [Option.map_none']
      rw [show capsOf hd = [] from by unfold capsOf; rw [hnul]]
    | some k =>
      simp only [Option.map_some']
      obtain ⟨-, hklt, hkp, -⟩ := findIdx?_some_spec hd 0 k hnul
      have hkval : hd.get ⟨k - 0, hklt⟩ = '\x00' := by simpa using hkp
      have hlastv : hd[hd.length - 1]? = some '\n' := by
        rw [← List.getLast?_eq_getElem?]
        exact hlast
      have hkne : k - 0 ≠ hd.length - 1 := by
        intro hcon
        have hsome : hd[k - 0]? = some '\x00' := by
          rw [List.getElem?_eq_getElem hklt, ← hkval]
          rfl
        rw [hcon, hlastv] at hsome
        simp at hsome
      have hk2 : k + 2 ≤ hd.length := by
        simp only [Nat.sub_zero] at hklt hkne
        omega
      rw [if_pos (by omega)]
      rw [if_neg (by
        rw [hsti, hstj, hll]
        omega)]
      have hslice : sub (encAd (pre ++ AdLine.data hd :: post))
          (st.hlinei + (4 + k) + 1) (st.hlinej - 1) =
          (hd.drop (k + 1)).take (hd.length - 1 - (k + 1)) := by
        rw [hsti, hstj]
        unfold sub
        rw [show adLen pre + (4 + k) + 1 = (adLen pre + 4) + (k + 1) from by omega]
        rw [← List.drop_drop, hdata4]
        rw [List.drop_append_of_le_length (by
          simp only [Nat.sub_zero] at hklt
          omega)]
        rw [show adLen pre + lineLen (AdLine.data hd) - 1 - ((adLen pre + 4) + (k + 1)) =
          hd.length - 1 - (k + 1) from by rw [hll]; omega]
        exact List.take_append_of_le_length (by rw [List.length_drop]; omega)
      rw [hslice]
      rw [show capsOf hd =
        replaceSymref ((hd.drop (k + 1)).take (hd.length - 1 - (k + 1))) from by
        unfold capsOf
        rw [hnul]]
  have hmcase : (st.mlinei = 0 ∧ rest = post) ∨
      ∃ p1 md p2, post = p1 ++ AdLine.data md :: p2 ∧ rest = p1 ++ p2 ∧
        st.mlinei = adLen pre + lineLen (AdLine.data hd) + adLen p1 ∧
        st.mlinej = st.mlinei + lineLen (AdLine.data md) := by
    rcases hmrest with ⟨hrest_eq, hnoM⟩ | ⟨p1, md, p2, hposteq, hrest_eq, hmd, hnoM2⟩
    · refine Or.inl ⟨?_, hrest_eq⟩
      have hMpair := stepLine_mline major (foldScan major initScan 0 pre) (adLen pre)
        (AdLine.data hd)
      rw [if_neg hhd_ne_m] at hMpair
      have hMi : (stepLine major (foldScan major initScan 0 pre) (adLen pre)
          (AdLine.data hd)).mlinei = (foldScan major initScan 0 pre).mlinei := by
        have := congrArg Prod.fst hMpair
        simpa using this
      have hpostM := foldScan_mline_none major post
        (fun l hl => hnoM l (List.mem_append_right _ hl))
        (stepLine major (foldScan major initScan 0 pre) (adLen pre) (AdLine.data hd))
        (adLen pre + lineLen (AdLine.data hd))
      have hpreMf := foldScan_mline_none major pre
        (fun l hl => hnoM l (List.mem_append_left _ hl)) initScan 0
      rw [hsplit, hpostM.1, hMi, hpreMf.1]
      rfl
    · have hMdpair := stepLine_mline major
        (foldScan major (stepLine major (foldScan major initScan 0 pre) (adLen pre)
          (AdLine.data hd)) (adLen pre + lineLen (AdLine.data hd)) p1)
        (adLen pre + lineLen (AdLine.data hd) + adLen p1) (AdLine.data md)
      rw [if_pos hmd] at hMdpair
      have hMdi : (stepLine major
          (foldScan major (stepLine major (foldScan major initScan 0 pre) (adLen pre)
            (AdLine.data hd)) (adLen pre + lineLen (AdLine.data hd)) p1)
          (adLen pre + lineLen (AdLine.data hd) + adLen p1) (AdLine.data md)).mlinei =
          adLen pre + lineLen (AdLine.data hd) + adLen p1 := by
        have := congrArg Prod.fst hMdpair
        simpa using this
      have hMdj : (stepLine major
          (foldScan major (stepLine major (foldScan major initScan 0 pre) (adLen pre)
            (AdLine.data hd)) (adLen pre + lineLen (AdLine.data hd)) p1)
          (adLen pre + lineLen (AdLine.data hd) + adLen p1) (AdLine.data md)).mlinej =
          adLen pre + lineLen (AdLine.data hd) + adLen p1 + lineLen (AdLine.data md) := by
        have := congrArg Prod.snd hMdpair
        simpa using this
      have hp2M := foldScan_mline_none major p2
        (fun l hl => hnoM2 l (List.mem_append_right _ (List.mem_append_right _ hl)))
        (stepLine major
          (foldScan major (stepLine major (foldScan major initScan 0 pre) (adLen pre)
            (AdLine.data hd)) (adLen pre + lineLen (AdLine.data hd)) p1)
          (adLen pre + lineLen (AdLine.data hd) + adLen p1) (AdLine.data md))
        (adLen pre + lineLen (AdLine.data hd) + adLen p1 + lineLen (AdLine.data md))
      have hstm_i : st.mlinei = adLen pre + lineLen (AdLine.data hd) + adLen p1 := by
        rw [hsplit, hposteq, foldScan_append]
        show (foldScan major (stepLine major
          (foldScan major (stepLine major (foldScan major initScan 0 pre) (adLen pre)
            (AdLine.data hd)) (adLen pre + lineLen (AdLine.data hd)) p1)
          (adLen pre + lineLen (AdLine.data hd) + adLen p1) (AdLine.data md))
          (adLen pre + lineLen (AdLine.data hd) + adLen p1 + lineLen (AdLine.data md))
          p2).mlinei = _
        rw [hp2M.1, hMdi]
      have hstm_j : st.mlinej = adLen pre + lineLen (AdLine.data hd) + adLen p1 +
          lineLen (AdLine.data md) := by
        rw [hsplit, hposteq, foldScan_append]
        show (foldScan major (stepLine major
          (foldScan major (stepLine major (foldScan major initScan 0 pre) (adLen pre)
            (AdLine.data hd)) (adLen pre + lineLen (AdLine.data hd)) p1)
          (adLen pre + lineLen (AdLine.data hd) + adLen p1) (AdLine.data md))
          (adLen pre + lineLen (AdLine.data hd) + adLen p1 + lineLen (AdLine.data md))
          p2).mlinej = _
        rw [hp2M.2, hMdj]
      exact Or.inr ⟨p1, md, p2, hposteq, hrest_eq, hstm_i, by rw [hstm_j, hstm_i]⟩
  obtain ⟨tail, htail, htag, hrw⟩ := rewriteAd_encAd pre post rest hd st (capsOf hd)
    hwf hsti hstj hmcase
  refine ⟨tail, htail, ?_, ?_⟩
  · rw [hchg, hrw, hstv, hsthash]
  · intro hft
    rw [htag (by rw [hstname]; exact hft)]
    by_cases hcz : capsOf hd = []
    · rw [if_pos (show (capsOf hd).isEmpty = true from by rw [hcz]; rfl), if_pos hcz]
    · rw [if_neg (show ¬ ((capsOf hd).isEmpty = true) from fun hcon =>
        hcz (List.isEmpty_iff.mp hcon)), if_neg hcz]

/-- Claim C1: on a well-formed advertisement with a (unique, non-initial,
newline-terminated) `HEAD` line, at most one master line and located after
`HEAD`, and at least one versioned reference contained in the requested
bucket, `changeRefs` succeeds; the output has exactly one line named `HEAD`
and exactly one line named `refs/heads/master`, and both carry the hash
recorded for the greatest version contained in the bucket. -/
theorem c1_rewrite_correct (pre post : List AdLine) (hd : List Char) (major : Version)
    (hmaj : 0 ≤ major.Major)
    (hsmall : ∀ l ∈ pre ++ AdLine.data hd :: post, smallLineB l = true)
    (hpre : pre ≠ [])
    (hhd : nameOf? (AdLine.data hd) = some headN)
    (hlast : hd.getLast? = some '\n')
    (hpreH : ∀ l ∈ pre, nameOf? l ≠ some headN)
    (hpostH : ∀ l ∈ post, nameOf? l ≠ some headN)
    (hmaster : (∀ l ∈ pre ++ post, nameOf? l ≠ some masterN) ∨
      ∃ p1 md p2, post = p1 ++ AdLine.data md :: p2 ∧
        nameOf? (AdLine.data md) = some masterN ∧
        ∀ l ∈ pre ++ (p1 ++ p2), nameOf? l ≠ some masterN)
    (hex : ∃ v ∈ versionsOf (pre ++ AdLine.data hd :: post), major.Contains v = true) :
    ∃ (out : List AdLine) (best : Version) (bhash : List Char),
      changeRefs (encAd (pre ++ AdLine.data hd :: post)) major =
        ChangeOut.ok (encAd out) (versionsOf (pre ++ AdLine.data hd :: post)) ∧
      out.countP (fun l => nameOf? l == some headN) = 1 ∧
      out.countP (fun l => nameOf? l == some masterN) = 1 ∧
      (∀ l ∈ out, nameOf? l = some headN → (payloadOf l).take 40 = bhash) ∧
      (∀ l ∈ out, nameOf? l = some masterN → (payloadOf l).take 40 = bhash) ∧
      (∃ t ∈ vlines (pre ++ AdLine.data hd :: post), t.1 = best ∧ t.2.1 = bhash) ∧
      major.Contains best = true ∧
      best ∈ versionsOf (pre ++ AdLine.data hd :: post) ∧
      (∀ v ∈ versionsOf (pre ++ AdLine.data hd :: post), major.Contains v = true →
        Version.Less best v = false) := by
  have hexT : ∃ t ∈ vlines (pre ++ AdLine.data hd :: post), major.Contains t.1 = true := by
    obtain ⟨v, hv, hcv⟩ := hex
    rw [versionsOf_eq_vlines] at hv
    obtain ⟨t, ht, hteq⟩ := List.mem_map.mp hv
    exact ⟨t, ht, by rw [hteq]; exact hcv⟩
  obtain ⟨hbm, hbc, hbmax⟩ := vfold_max major hmaj
    (vlines (pre ++ AdLine.data hd :: post)) hexT
  obtain ⟨l0, hl0mem, hl0⟩ := List.mem_filterMap.mp hbm
  obtain ⟨-, hhlen, hhsp⟩ := lineVer?_hash l0 _ _ _ hl0
  obtain ⟨rest, hmrest, hrestH, hrestM, hpreM⟩ :
      ∃ rest, ((rest = post ∧ ∀ l ∈ pre ++ post, nameOf? l ≠ some masterN) ∨
        (∃ p1 md p2, post = p1 ++ AdLine.data md :: p2 ∧ rest = p1 ++ p2 ∧
          nameOf? (AdLine.data md) = some masterN ∧
          ∀ l ∈ pre ++ (p1 ++ p2), nameOf? l ≠ some masterN)) ∧
        (∀ l ∈ rest, nameOf? l ≠ some headN) ∧
        (∀ l ∈ rest, nameOf? l ≠ some masterN) ∧
        (∀ l ∈ pre, nameOf? l ≠ some masterN) := by
    rcases hmaster with hnoM | ⟨p1, md, p2, hposteq, hmd, hnoM2⟩
    · exact ⟨post, Or.inl ⟨rfl, hnoM⟩, hpostH,
        fun l hl => hnoM l (List.mem_append_right _ hl),
        fun l hl => hnoM l (List.mem_append_left _ hl)⟩
    · refine ⟨p1 ++ p2, Or.inr ⟨p1, md, p2, hposteq, rfl, hmd, hnoM2⟩, ?_,
        fun l hl => hnoM2 l (List.mem_append_right _ hl),
        fun l hl => hnoM2 l (List.mem_append_left _ hl)⟩
      intro l hl
      apply hpostH
      rw [hposteq]
      rcases List.mem_append.mp hl with h | h
      · exact List.mem_append_left _ h
      · exact List.mem_append_right _ (List.mem_cons_of_mem _ h)
  obtain ⟨tail, htail, heq, -⟩ := changeRefs_structured pre post rest hd major hmaj
    hsmall hpre hhd hlast hpostH hmrest hex
  have hl1name : nameOf? (AdLine.data (((vlines (pre ++ AdLine.data hd :: post)).foldl (vstep major) (InvalidVersion, [], [])).2.1 ++ ' ' :: (headN ++ tail))) =
      some headN := by
    unfold nameOf?
    dsimp only [payloadOf]
    rw [lineName?_mk ((vlines (pre ++ AdLine.data hd :: post)).foldl (vstep major) (InvalidVersion, [], [])).2.1 headN tail hhlen hhsp (by decide) htail]
    rfl
  have hl2name : nameOf? (AdLine.data (((vlines (pre ++ AdLine.data hd :: post)).foldl (vstep major) (InvalidVersion, [], [])).2.1 ++ ' ' :: (masterN ++ ['\n']))) =
      some masterN := by
    unfold nameOf?
    dsimp only [payloadOf]
    rw [lineName?_mk ((vlines (pre ++ AdLine.data hd :: post)).foldl (vstep major) (InvalidVersion, [], [])).2.1 masterN ['\n'] hhlen hhsp (by decide) (Or.inl rfl)]
    rfl
  refine ⟨pre ++ AdLine.data (((vlines (pre ++ AdLine.data hd :: post)).foldl (vstep major) (InvalidVersion, [], [])).2.1 ++ ' ' :: (headN ++ tail)) ::
      AdLine.data (((vlines (pre ++ AdLine.data hd :: post)).foldl (vstep major) (InvalidVersion, [], [])).2.1 ++ ' ' :: (masterN ++ ['\n'])) :: rest,
    ((vlines (pre ++ AdLine.data hd :: post)).foldl (vstep major) (InvalidVersion, [], [])).1, ((vlines (pre ++ AdLine.data hd :: post)).foldl (vstep major) (InvalidVersion, [], [])).2.1, heq, ?_, ?_, ?_, ?_, ⟨((vlines (pre ++ AdLine.data hd :: post)).foldl (vstep major) (InvalidVersion, [], [])), hbm, rfl, rfl⟩, hbc, ?_, ?_⟩
  · rw [List.countP_append, List.countP_cons, List.countP_cons,
      List.countP_eq_zero.mpr (fun a ha hcon => hpreH a ha (beq_iff_eq.mp hcon)),
      List.countP_eq_zero.mpr (fun a ha hcon => hrestH a ha (beq_iff_eq.mp hcon)),
      if_pos (show ((nameOf? (AdLine.data (((vlines (pre ++ AdLine.data hd :: post)).foldl (vstep major) (InvalidVersion, [], [])).2.1 ++ ' ' :: (headN ++ tail))) ==
        some headN) = true) from by rw [hl1name]; exact beq_iff_eq.mpr rfl),
      if_neg (show ¬ ((nameOf? (AdLine.data (((vlines (pre ++ AdLine.data hd :: post)).foldl (vstep major) (InvalidVersion, [], [])).2.1 ++ ' ' :: (masterN ++ ['\n']))) ==
        some headN) = true) from by
        rw [hl2name]
        intro hcon
        rw [beq_iff_eq] at hcon
        simp only [Option.some.injEq] at hcon
        exact absurd hcon (by decide))]
  · rw [List.countP_append, List.countP_cons, List.countP_cons,
      List.countP_eq_zero.mpr (fun a ha hcon => hpreM a ha (beq_iff_eq.mp hcon)),
      List.countP_eq_zero.mpr (fun a ha hcon => hrestM a ha (beq_iff_eq.mp hcon)),
      if_pos (show ((nameOf? (AdLine.data (((vlines (pre ++ AdLine.data hd :: post)).foldl (vstep major) (InvalidVersion, [], [])).2.1 ++ ' ' :: (masterN ++ ['\n']))) ==
        some masterN) = true) from by rw [hl2name]; exact beq_iff_eq.mpr rfl),
      if_neg (show ¬ ((nameOf? (AdLine.data (((vlines (pre ++ AdLine.data hd :: post)).foldl (vstep major) (InvalidVersion, [], [])).2.1 ++ ' ' :: (headN ++ tail))) ==
        some masterN) = true) from by
        rw [hl1name]
        intro hcon
        rw [beq_iff_eq] at hcon
        simp only [Option.some.injEq] at hcon
        exact absurd hcon (by decide))]
  · intro l hl hname
    rcases List.mem_append.mp hl with hl | hl
    · exact absurd hname (hpreH l hl)
    · rcases List.mem_cons.mp hl with rfl | hl
      · dsimp only [payloadOf]
        exact List.take_left' hhlen
      · rcases List.mem_cons.mp hl with rfl | hl
        · rw [hl2name] at hname
          simp only [Option.some.injEq] at hname
          exact absurd hname (by decide)
        · exact absurd hname (hrestH l hl)
  · intro l hl hname
    rcases List.mem_append.mp hl with hl | hl
    · exact absurd hname (hpreM l hl)
    · rcases List.mem_cons.mp hl with rfl | hl
      · rw [hl1name] at hname
        simp only [Option.some.injEq] at hname
        exact absurd hname (by decide)
      · rcases List.mem_cons.mp hl with rfl | hl
        · dsimp only [payloadOf]
          exact List.take_left' hhlen
        · exact absurd hname (hrestM l hl)
  · rw [versionsOf_eq_vlines]
    exact List.mem_map.mpr ⟨_, hbm, rfl⟩
  · intro v hv hcv
    rw [versionsOf_eq_vlines] at hv
    obtain ⟨t, ht, hteq⟩ := List.mem_map.mp hv
    rw [← hteq]
    exact hbmax t ht (by rw [hteq]; exact hcv)

set_option maxRecDepth 1000000 in
/-- Claim C1 witness: a three-line advertisement (delimiter, `HEAD` line,
one `v1` tag) requested for bucket `v1`. -/
theorem c1_rewrite_correct_witness :
    ∃ (out : List AdLine) (best : Version) (bhash : List Char),
      changeRefs (encAd ([AdLine.flush] ++ AdLine.data ((List.replicate 40 'a') ++ (" HEAD\n").toList) :: [(AdLine.data ((List.replicate 40 'b') ++ (" refs/tags/v1\n").toList))])) ⟨1, -1, -1, false⟩ =
        ChangeOut.ok (encAd out) (versionsOf ([AdLine.flush] ++ AdLine.data ((List.replicate 40 'a') ++ (" HEAD\n").toList) :: [(AdLine.data ((List.replicate 40 'b') ++ (" refs/tags/v1\n").toList))])) ∧
      out.countP (fun l => nameOf? l == some headN) = 1 ∧
      out.countP (fun l => nameOf? l == some masterN) = 1 ∧
      (∀ l ∈ out, nameOf? l = some headN → (payloadOf l).take 40 = bhash) ∧
      (∀ l ∈ out, nameOf? l = some masterN → (payloadOf l).take 40 = bhash) ∧
      (∃ t ∈ vlines ([AdLine.flush] ++ AdLine.data ((List.replicate 40 'a') ++ (" HEAD\n").toList) :: [(AdLine.data ((List.replicate 40 'b') ++ (" refs/tags/v1\n").toList))]), t.1 = best ∧ t.2.1 = bhash) ∧
      Version.Contains ⟨1, -1, -1, false⟩ best = true ∧
      best ∈ versionsOf ([AdLine.flush] ++ AdLine.data ((List.replicate 40 'a') ++ (" HEAD\n").toList) :: [(AdLine.data ((List.replicate 40 'b') ++ (" refs/tags/v1\n").toList))]) ∧
      (∀ v ∈ versionsOf ([AdLine.flush] ++ AdLine.data ((List.replicate 40 'a') ++ (" HEAD\n").toList) :: [(AdLine.data ((List.replicate 40 'b') ++ (" refs/tags/v1\n").toList))]), Version.Contains ⟨1, -1, -1, false⟩ v = true →
        Version.Less best v = false) :=
  c1_rewrite_correct [AdLine.flush] [(AdLine.data ((List.replicate 40 'b') ++ (" refs/tags/v1\n").toList))]
    ((List.replicate 40 'a') ++ (" HEAD\n").toList) ⟨1, -1, -1, false⟩
    (by decide) (by decide) (by decide) (by decide) (by decide) (by decide)
    (by decide) (Or.inl (by decide)) (by decide)

/-- The rewritten payload of a successful `changeRefs`, if any. -/
def chOut : ChangeOut → Option (List Char)
  | .ok c _ => some c
  | _ => none

/-- Claim C2 (amended): on a well-formed advertisement as in the rewrite
correctness claim, whenever the reference the fold selects for the bucket
is a tag (not a `refs/heads/*` branch) — its recorded hash being NUL-free,
as any real hex hash text is, and the `HEAD` payload within a re-encoding
margin — rewriting is idempotent: a second run on the rewritten output
returns it byte-for-byte with the same version list.  Capabilities on the
`HEAD` line and non-selected branch references are allowed: the second run
re-extracts the capabilities unchanged because `symref=` rewriting is
idempotent.  When the selected candidate is a branch, the runs differ
(see the counterexample). -/
theorem c2_tag_candidate_idempotent (pre post : List AdLine) (hd : List Char)
    (major : Version)
    (hmaj : 0 ≤ major.Major)
    (hsmall : ∀ l ∈ pre ++ AdLine.data hd :: post, smallLineB l = true)
    (hhdlen : hd.length ≤ 15000)
    (hpre : pre ≠ [])
    (hhd : nameOf? (AdLine.data hd) = some headN)
    (hlast : hd.getLast? = some '\n')
    (hpostH : ∀ l ∈ post, nameOf? l ≠ some headN)
    (hmaster : (∀ l ∈ pre ++ post, nameOf? l ≠ some masterN) ∨
      ∃ p1 md p2, post = p1 ++ AdLine.data md :: p2 ∧
        nameOf? (AdLine.data md) = some masterN ∧
        ∀ l ∈ pre ++ (p1 ++ p2), nameOf? l ≠ some masterN)
    (hex : ∃ v ∈ versionsOf (pre ++ AdLine.data hd :: post), major.Contains v = true)
    (htagsel : startsWith refsHeadsPfx ((vlines (pre ++ AdLine.data hd :: post)).foldl (vstep major) (InvalidVersion, [], [])).2.2 = false)
    (hhashnul : ∀ c ∈ ((vlines (pre ++ AdLine.data hd :: post)).foldl (vstep major) (InvalidVersion, [], [])).2.1, (c == '\x00') = false) :
    ∃ (out : List Char) (vs : List Version),
      changeRefs (encAd (pre ++ AdLine.data hd :: post)) major = ChangeOut.ok out vs ∧
      changeRefs out major = ChangeOut.ok out vs := by
  obtain ⟨rest, hmrest, hrestH, hrestM, hpreM, hvlrest, hrestsub⟩ :
      ∃ rest, ((rest = post ∧ ∀ l ∈ pre ++ post, nameOf? l ≠ some masterN) ∨
        (∃ p1 md p2, post = p1 ++ AdLine.data md :: p2 ∧ rest = p1 ++ p2 ∧
          nameOf? (AdLine.data md) = some masterN ∧
          ∀ l ∈ pre ++ (p1 ++ p2), nameOf? l ≠ some masterN)) ∧
        (∀ l ∈ rest, nameOf? l ≠ some headN) ∧
        (∀ l ∈ rest, nameOf? l ≠ some masterN) ∧
        (∀ l ∈ pre, nameOf? l ≠ some masterN) ∧
        vlines rest = vlines post ∧
        (∀ l ∈ rest, l ∈ post) := by
    rcases hmaster with hnoM | ⟨p1, md, p2, hposteq, hmd, hnoM2⟩
    · exact ⟨post, Or.inl ⟨rfl, hnoM⟩, hpostH,
        fun l hl => hnoM l (List.mem_append_right _ hl),
        fun l hl => hnoM l (List.mem_append_left _ hl), rfl, fun l hl => hl⟩
    · have hsubp : ∀ l ∈ p1 ++ p2, l ∈ post := by
        intro l hl
        rw [hposteq]
        rcases List.mem_append.mp hl with h | h
        · exact List.mem_append_left _ h
        · exact List.mem_append_right _ (List.mem_cons_of_mem _ h)
      refine ⟨p1 ++ p2, Or.inr ⟨p1, md, p2, hposteq, rfl, hmd, hnoM2⟩,
        fun l hl => hpostH l (hsubp l hl),
        fun l hl => hnoM2 l (List.mem_append_right _ hl),
        fun l hl => hnoM2 l (List.mem_append_left _ hl), ?_, hsubp⟩
      rw [hposteq, vlines_append, vlines_append,
        vlines_cons_none _ _ (lineVer?_none_of_name _ masterN hmd (by decide))]
  obtain ⟨tail, htail, heq1, htagtail⟩ := changeRefs_structured pre post rest hd major
    hmaj hsmall hpre hhd hlast hpostH hmrest hex
  have hexT : ∃ t ∈ vlines (pre ++ AdLine.data hd :: post), major.Contains t.1 = true := by
    obtain ⟨v, hv, hcv⟩ := hex
    rw [versionsOf_eq_vlines] at hv
    obtain ⟨t, ht, hteq⟩ := List.mem_map.mp hv
    exact ⟨t, ht, by rw [hteq]; exact hcv⟩
  obtain ⟨hbm, -, -⟩ := vfold_max major hmaj
    (vlines (pre ++ AdLine.data hd :: post)) hexT
  obtain ⟨l0, hl0mem, hl0⟩ := List.mem_filterMap.mp hbm
  obtain ⟨-, hhlen, hhsp⟩ := lineVer?_hash l0 _ _ _ hl0
  have htail_eq : tail =
      if capsOf hd = [] then ['\n'] else '\x00' :: (capsOf hd ++ ['\n']) :=
    htagtail htagsel
  have htaillen : tail.length ≤ hd.length + 2 := by
    rw [htail_eq]
    split_ifs with hcz
    · simp
    · simp only [List.length_cons, List.length_append, List.length_nil]
      have := capsOf_length_le hd
      omega
  have hl1name : nameOf? (AdLine.data (((vlines (pre ++ AdLine.data hd :: post)).foldl (vstep major) (InvalidVersion, [], [])).2.1 ++ ' ' :: (headN ++ tail))) =
      some headN := by
    unfold nameOf?
    dsimp only [payloadOf]
    rw [lineName?_mk ((vlines (pre ++ AdLine.data hd :: post)).foldl (vstep major) (InvalidVersion, [], [])).2.1 headN tail hhlen hhsp (by decide) htail]
    rfl
  have hl2name : nameOf? (AdLine.data (((vlines (pre ++ AdLine.data hd :: post)).foldl (vstep major) (InvalidVersion, [], [])).2.1 ++ ' ' :: (masterN ++ ['\n']))) =
      some masterN := by
    unfold nameOf?
    dsimp only [payloadOf]
    rw [lineName?_mk ((vlines (pre ++ AdLine.data hd :: post)).foldl (vstep major) (InvalidVersion, [], [])).2.1 masterN ['\n'] hhlen hhsp (by decide) (Or.inl rfl)]
    rfl
  have hcaps2 : capsOf (((vlines (pre ++ AdLine.data hd :: post)).foldl (vstep major) (InvalidVersion, [], [])).2.1 ++ ' ' :: (headN ++ tail)) = capsOf hd := by
    rw [htail_eq]
    by_cases hcz : capsOf hd = []
    · rw [if_pos hcz, hcz]
      rw [capsOf_none _ (findIdx?_none_of_forall _ (by
        intro c hc
        rcases List.mem_append.mp hc with hc | hc
        · exact hhashnul c hc
        · exact (by decide : ∀ c ∈ (' ' :: (headN ++ ['\n'])), (c == '\x00') = false)
            c hc))]
    · rw [if_neg hcz]
      have hpre45 : ∀ c ∈ ((vlines (pre ++ AdLine.data hd :: post)).foldl (vstep major) (InvalidVersion, [], [])).2.1 ++ (' ' :: headN), (c == '\x00') = false := by
        intro c hc
        rcases List.mem_append.mp hc with hc | hc
        · exact hhashnul c hc
        · exact (by decide : ∀ c ∈ (' ' :: headN), (c == '\x00') = false) c hc
      have hlen45 : (((vlines (pre ++ AdLine.data hd :: post)).foldl (vstep major) (InvalidVersion, [], [])).2.1 ++ (' ' :: headN)).length = 45 := by
        rw [List.length_append, hhlen]
        rfl
      have hfind : List.findIdx? (fun c => c == '\x00')
          (((vlines (pre ++ AdLine.data hd :: post)).foldl (vstep major) (InvalidVersion, [], [])).2.1 ++ ' ' :: (headN ++ ('\x00' :: (capsOf hd ++ ['\n'])))) = some 45 := by
        rw [show ((vlines (pre ++ AdLine.data hd :: post)).foldl (vstep major) (InvalidVersion, [], [])).2.1 ++ ' ' :: (headN ++ ('\x00' :: (capsOf hd ++ ['\n']))) =
            (((vlines (pre ++ AdLine.data hd :: post)).foldl (vstep major) (InvalidVersion, [], [])).2.1 ++ (' ' :: headN)) ++ ('\x00' :: (capsOf hd ++ ['\n'])) from by simp]
        rw [findIdx?_append_false _ hpre45, List.findIdx?_cons, if_pos (by rfl), hlen45]
      rw [capsOf_some _ 45 hfind]
      have hdrop46 : (((vlines (pre ++ AdLine.data hd :: post)).foldl (vstep major) (InvalidVersion, [], [])).2.1 ++ ' ' :: (headN ++ ('\x00' :: (capsOf hd ++ ['\n'])))).drop 46 =
          capsOf hd ++ ['\n'] := by
        rw [show ((vlines (pre ++ AdLine.data hd :: post)).foldl (vstep major) (InvalidVersion, [], [])).2.1 ++ ' ' :: (headN ++ ('\x00' :: (capsOf hd ++ ['\n']))) =
            (((vlines (pre ++ AdLine.data hd :: post)).foldl (vstep major) (InvalidVersion, [], [])).2.1 ++ (' ' :: (headN ++ ['\x00']))) ++ (capsOf hd ++ ['\n']) from by simp]
        exact List.drop_left' (by rw [List.length_append, hhlen]; rfl)
      have hlenX : (((vlines (pre ++ AdLine.data hd :: post)).foldl (vstep major) (InvalidVersion, [], [])).2.1 ++ ' ' :: (headN ++ ('\x00' :: (capsOf hd ++ ['\n'])))).length =
          47 + (capsOf hd).length := by
        rw [List.length_append, hhlen]
        simp only [List.length_cons, List.length_append, List.length_nil]
        have h4 : headN.length = 4 := rfl
        omega
      rw [hdrop46, hlenX,
        show 47 + (capsOf hd).length - 1 - 46 = (capsOf hd).length from by omega,
        List.take_left]
      exact replaceSymref_capsOf hd
  have hvl2 : vlines (pre ++ AdLine.data (((vlines (pre ++ AdLine.data hd :: post)).foldl (vstep major) (InvalidVersion, [], [])).2.1 ++ ' ' :: (headN ++ tail)) ::
      AdLine.data (((vlines (pre ++ AdLine.data hd :: post)).foldl (vstep major) (InvalidVersion, [], [])).2.1 ++ ' ' :: (masterN ++ ['\n'])) :: rest) =
      vlines (pre ++ AdLine.data hd :: post) := by
    conv_rhs => rw [vlines_append,
      vlines_cons_none _ _ (lineVer?_none_of_name _ headN hhd (by decide))]
    rw [vlines_append,
      vlines_cons_none _ _ (lineVer?_none_of_name _ headN hl1name (by decide)),
      vlines_cons_none _ _ (lineVer?_none_of_name _ masterN hl2name (by decide)),
      hvlrest]
  have hver2 : versionsOf (pre ++ AdLine.data (((vlines (pre ++ AdLine.data hd :: post)).foldl (vstep major) (InvalidVersion, [], [])).2.1 ++ ' ' :: (headN ++ tail)) ::
      AdLine.data (((vlines (pre ++ AdLine.data hd :: post)).foldl (vstep major) (InvalidVersion, [], [])).2.1 ++ ' ' :: (masterN ++ ['\n'])) :: rest) =
      versionsOf (pre ++ AdLine.data hd :: post) := by
    rw [versionsOf_eq_vlines, hvl2, ← versionsOf_eq_vlines]
  have hsmall2 : ∀ l ∈ pre ++ AdLine.data (((vlines (pre ++ AdLine.data hd :: post)).foldl (vstep major) (InvalidVersion, [], [])).2.1 ++ ' ' :: (headN ++ tail)) ::
      AdLine.data (((vlines (pre ++ AdLine.data hd :: post)).foldl (vstep major) (InvalidVersion, [], [])).2.1 ++ ' ' :: (masterN ++ ['\n'])) :: rest,
      smallLineB l = true := by
    intro l hl
    rcases List.mem_append.mp hl with hl | hl
    · exact hsmall l (List.mem_append_left _ hl)
    · rcases List.mem_cons.mp hl with rfl | hl
      · simp only [smallLineB, decide_eq_true_eq, List.length_append, List.length_cons, List.length_nil,
          hhlen]
        have h4 : headN.length = 4 := rfl
        omega
      · rcases List.mem_cons.mp hl with rfl | hl
        · simp only [smallLineB, decide_eq_true_eq, List.length_append, List.length_cons, List.length_nil,
            hhlen]
          have h17 : masterN.length = 17 := rfl
          omega
        · exact hsmall l (List.mem_append_right _
            (List.mem_cons_of_mem _ (hrestsub l hl)))
  have hlast2 : (((vlines (pre ++ AdLine.data hd :: post)).foldl (vstep major) (InvalidVersion, [], [])).2.1 ++ ' ' :: (headN ++ tail)).getLast? = some '\n' := by
    rw [htail_eq]
    split_ifs with hcz
    · rw [show ((vlines (pre ++ AdLine.data hd :: post)).foldl (vstep major) (InvalidVersion, [], [])).2.1 ++ ' ' :: (headN ++ ['\n']) =
        (((vlines (pre ++ AdLine.data hd :: post)).foldl (vstep major) (InvalidVersion, [], [])).2.1 ++ ' ' :: headN) ++ ['\n'] from by simp]
      exact List.getLast?_concat _
    · rw [show ((vlines (pre ++ AdLine.data hd :: post)).foldl (vstep major) (InvalidVersion, [], [])).2.1 ++ ' ' :: (headN ++ ('\x00' :: (capsOf hd ++ ['\n']))) =
        (((vlines (pre ++ AdLine.data hd :: post)).foldl (vstep major) (InvalidVersion, [], [])).2.1 ++ ' ' :: (headN ++ ('\x00' :: capsOf hd))) ++ ['\n'] from by simp]
      exact List.getLast?_concat _
  have hpostH2 : ∀ l ∈ AdLine.data (((vlines (pre ++ AdLine.data hd :: post)).foldl (vstep major) (InvalidVersion, [], [])).2.1 ++ ' ' :: (masterN ++ ['\n'])) :: rest,
      nameOf? l ≠ some headN := by
    intro l hl
    rcases List.mem_cons.mp hl with rfl | hl
    · rw [hl2name]
      intro hcon
      simp only [Option.some.injEq] at hcon
      exact absurd hcon (by decide)
    · exact hrestH l hl
  have hex2 : ∃ v ∈ versionsOf (pre ++ AdLine.data (((vlines (pre ++ AdLine.data hd :: post)).foldl (vstep major) (InvalidVersion, [], [])).2.1 ++ ' ' :: (headN ++ tail)) ::
      AdLine.data (((vlines (pre ++ AdLine.data hd :: post)).foldl (vstep major) (InvalidVersion, [], [])).2.1 ++ ' ' :: (masterN ++ ['\n'])) :: rest),
      major.Contains v = true := by
    rw [hver2]
    exact hex
  obtain ⟨tail2, htail2, heq2, htagtail2⟩ := changeRefs_structured pre
    (AdLine.data (((vlines (pre ++ AdLine.data hd :: post)).foldl (vstep major) (InvalidVersion, [], [])).2.1 ++ ' ' :: (masterN ++ ['\n'])) :: rest) rest
    (((vlines (pre ++ AdLine.data hd :: post)).foldl (vstep major) (InvalidVersion, [], [])).2.1 ++ ' ' :: (headN ++ tail)) major hmaj hsmall2 hpre hl1name hlast2
    hpostH2
    (Or.inr ⟨[], ((vlines (pre ++ AdLine.data hd :: post)).foldl (vstep major) (InvalidVersion, [], [])).2.1 ++ ' ' :: (masterN ++ ['\n']), rest, rfl, rfl, hl2name, by
      intro l hl
      rcases List.mem_append.mp hl with h | h
      · exact hpreM l h
      · exact hrestM l (by simpa using h)⟩)
    hex2
  rw [hvl2, hver2] at heq2
  rw [hvl2] at htagtail2
  have htl2 : tail2 = tail := by
    rw [htagtail2 htagsel, hcaps2, ← htail_eq]
  subst htl2
  exact ⟨_, _, heq1, heq2⟩

set_option maxRecDepth 1000000 in
/-- Witness for the C2 theorem: a concrete tag-selected advertisement
whose `HEAD` line carries capabilities (a NUL byte followed by
`symref=HEAD:refs/heads/master`) and which also advertises a non-selected
branch ref `refs/heads/v1`; the rewrite for major 1 is idempotent. -/
theorem c2_tag_candidate_idempotent_witness :
    ∃ (out : List Char) (vs : List Version),
      changeRefs (encAd ([AdLine.flush] ++ AdLine.data ((List.replicate 40 'a') ++ (" HEAD\x00symref=HEAD:refs/heads/master\n").toList) :: [AdLine.data ((List.replicate 40 'c') ++ (" refs/heads/v1\n").toList), AdLine.data ((List.replicate 40 'b') ++ (" refs/tags/v1\n").toList)])) ⟨1, -1, -1, false⟩ = ChangeOut.ok out vs ∧
      changeRefs out ⟨1, -1, -1, false⟩ = ChangeOut.ok out vs :=
  c2_tag_candidate_idempotent [AdLine.flush]
    [AdLine.data ((List.replicate 40 'c') ++ (" refs/heads/v1\n").toList), AdLine.data ((List.replicate 40 'b') ++ (" refs/tags/v1\n").toList)]
    ((List.replicate 40 'a') ++ (" HEAD\x00symref=HEAD:refs/heads/master\n").toList)
    ⟨1, -1, -1, false⟩
    (by decide) (by decide) (by decide) (by decide) (by decide) (by decide)
    (by decide) (Or.inl (by decide)) (by decide) (by decide) (by decide)

set_option maxRecDepth 1000000 in
/-- Claim C2 counterexample to the original statement: on an advertisement
whose best candidate is a branch (`refs/heads/v1`), the first rewrite
succeeds but a second rewrite of its output is not byte-identical — the
rewritten `symref=` capability is re-extracted and appended again as
`oldref=`. -/
theorem c2_counterexample :
    (chOut (changeRefs (encAd [AdLine.flush, AdLine.data ((List.replicate 40 'a') ++ (" HEAD\n").toList), AdLine.data ((List.replicate 40 'b') ++ (" refs/heads/v1\n").toList)]) ⟨1, -1, -1, false⟩)).isSome = true ∧
    (chOut (changeRefs (encAd [AdLine.flush, AdLine.data ((List.replicate 40 'a') ++ (" HEAD\n").toList), AdLine.data ((List.replicate 40 'b') ++ (" refs/heads/v1\n").toList)]) ⟨1, -1, -1, false⟩)).bind
        (fun c => chOut (changeRefs c ⟨1, -1, -1, false⟩)) ≠
      chOut (changeRefs (encAd [AdLine.flush, AdLine.data ((List.replicate 40 'a') ++ (" HEAD\n").toList), AdLine.data ((List.replicate 40 'b') ++ (" refs/heads/v1\n").toList)]) ⟨1, -1, -1, false⟩) := by
  constructor
  · decide
  · decide

/-! ## Claims C5, C6, C8: post-parse decisions and `#` lines -/

/-- Claim C6: on a well-formed advertisement in which no versioned
reference parses at all, a request for the bucket "major 0, stable" returns
the original payload byte-for-byte with an empty discovered-version list
and no error. -/
theorem c6_no_versions_v0 (ls : List AdLine)
    (hwf : ∀ l ∈ ls, wfLineB l = true)
    (hnov : versionsOf ls = []) :
    changeRefs (encAd ls) v0Stable = .ok (encAd ls) [] := by
  unfold changeRefs
  rw [changeRefsScan_encAd v0Stable ls hwf]
  dsimp only
  have hv : (foldScan v0Stable initScan 0 ls).versions = [] := by
    rw [foldScan_versions]
    simp [initScan, hnov]
  rw [if_pos (by rw [hv]; rfl)]

/-- Claim C6 witness: a two-line advertisement (service comment and
delimiter) with no refs at all. -/
theorem c6_no_versions_v0_witness :
    changeRefs (encAd [.data (("# service=git-upload-pack\n").toList), .flush]) v0Stable =
      .ok (encAd [.data (("# service=git-upload-pack\n").toList), .flush]) [] :=
  c6_no_versions_v0 _ (by decide) (by decide)

/-- Claim C5 (amended): on a well-formed advertisement with no line named
`HEAD`, `changeRefs` fails `VersionNotFound` for every requested bucket —
except that when additionally no versioned reference parsed at all and the
bucket is exactly "major 0, stable", the original payload is returned
unchanged (the no-tags early return precedes the missing-`HEAD` check). -/
theorem c5_no_head (ls : List AdLine) (major : Version)
    (hwf : ∀ l ∈ ls, wfLineB l = true)
    (hnohead : ∀ l ∈ ls, nameOf? l ≠ some headN) :
    changeRefs (encAd ls) major =
      if versionsOf ls = [] ∧ major = v0Stable then .ok (encAd ls) [] else .noVersion := by
  unfold changeRefs
  rw [changeRefsScan_encAd major ls hwf]
  dsimp only
  have hv : (foldScan major initScan 0 ls).versions = versionsOf ls := by
    rw [foldScan_versions]
    simp [initScan]
  have hh0 : (foldScan major initScan 0 ls).hlinei = 0 :=
    (foldScan_hline_none major ls hnohead initScan 0).1
  by_cases hcond : versionsOf ls = [] ∧ major = v0Stable
  · rw [if_pos hcond]
    rw [if_pos (by
      rw [hv, hcond.1, hcond.2]
      rfl)]
  · rw [if_neg hcond]
    rw [if_neg (show ¬(((foldScan major initScan 0 ls).versions.isEmpty
        && (major == v0Stable)) = true) from by
      rw [hv]
      intro hc
      rw [Bool.and_eq_true, List.isEmpty_iff, beq_iff_eq] at hc
      exact hcond hc)]
    rw [if_pos (by rw [hh0]; rfl)]

/-- Claim C5 witness for the amended statement: a single versioned ref and
no `HEAD` fails `VersionNotFound`. -/
theorem c5_no_head_witness :
    changeRefs (encAd [.data ((List.replicate 40 'b') ++ (" refs/tags/v1\n").toList)])
      ⟨1, -1, -1, false⟩ = .noVersion := by
  have h := c5_no_head [.data ((List.replicate 40 'b') ++ (" refs/tags/v1\n").toList)]
    ⟨1, -1, -1, false⟩ (by decide) (by decide)
  rw [if_neg (by decide)] at h
  exact h

/-- Claim C5 counterexample to the original statement: a payload whose only
line is a reference line at byte offset 0 (so no `HEAD` anywhere), for
which the claim demands `VersionNotFound` for every bucket including
"major 0, stable" — but the "major 0, stable" request succeeds with the
payload unchanged. -/
theorem c5_counterexample :
    (∀ l ∈ [AdLine.data ((List.replicate 40 'b') ++ (" refs/heads/foo\n").toList)],
      nameOf? l ≠ some headN) ∧
    changeRefs (encAd [.data ((List.replicate 40 'b') ++ (" refs/heads/foo\n").toList)])
      v0Stable =
      .ok (encAd [.data ((List.replicate 40 'b') ++ (" refs/heads/foo\n").toList)]) [] := by
  constructor
  · decide
  · decide

/-- Claim C8 (amended): the comment check of fetch.go:121 reads byte 0 of
the whole buffer, not of the current line, so it never skips anything: a
buffer-initial `#` fails the very first length-prefix parse instead, and a
line whose payload begins with `#` is skipped only for the reason any
malformed data line is — its first space is not exactly after 40
characters.  A `#`-payload line whose first space does sit at index 40 is
parsed as a regular reference line. -/
theorem c8_sharp_lines (major : Version) :
    (∀ (data : List Char), 4 ≤ data.length → data.head? = some '#' →
      changeRefsScan data major = .badSize 0) ∧
    (∀ (p : List Char) (st : ScanState) (i : Nat),
      p.head? = some '#' → p.findIdx? (fun c => c == ' ') ≠ some 40 →
      stepLine major st i (.data p) = st) ∧
    (∀ (p : List Char), p.head? = some '#' → p.findIdx? (fun c => c == ' ') = some 40 →
      (lineName? p).isSome = true) := by
  refine ⟨?_, ?_, ?_⟩
  · intro data hlen hh
    cases data with
    | nil => simp at hh
    | cons c tl =>
      have hc : c = '#' := by simpa using hh
      subst hc
      unfold changeRefsScan scanLoop
      rw [if_pos (by simp : 0 < ('#' :: tl).length)]
      rw [if_neg (by simp at hlen ⊢; omega)]
      have hsub : sub ('#' :: tl) 0 (0 + 4) = '#' :: tl.take 3 := by
        simp [sub]
      rw [hsub, show parseHexGo ('#' :: tl.take 3) = none from rfl]
  · intro p st i hh hsp
    have hname : lineName? p = none := by
      unfold lineName?
      cases hf : p.findIdx? (fun c => c == ' ') with
      | none => rfl
      | some hj =>
        dsimp only
        rw [if_pos (show (hj != 40) = true from by
          simp only [bne_iff_ne, ne_eq]
          intro hcon
          exact hsp (by rw [hf, hcon]))]
    unfold stepLine
    rw [show payloadOf (AdLine.data p) = p from rfl, hname]
  · intro p hh hsp
    unfold lineName?
    rw [hsp]
    rfl

/-- Claim C8 witness: the buffer-initial `#` aborts the parse; a comment
line (`# service=git-upload-pack`) is skipped because its first space is at
index 1, not 40; a crafted `#`-initial payload with a space at index 40
parses as a data line. -/
theorem c8_sharp_lines_witness :
    changeRefsScan (("#bad".toList)) v0Stable = .badSize 0 ∧
    stepLine v0Stable initScan 0 (.data (("# service=git-upload-pack\n").toList)) = initScan ∧
    (lineName? (('#' :: List.replicate 39 'z') ++ (" HEAD\n").toList)).isSome = true := by
  obtain ⟨h1, h2, h3⟩ := c8_sharp_lines v0Stable
  exact ⟨h1 _ (by decide) (by decide), h2 _ _ _ (by decide) (by decide),
    h3 _ (by decide) (by decide)⟩

set_option maxRecDepth 100000 in
/-- Claim C8 counterexample to the original statement: in an advertisement
whose last line's payload begins with `#` and has its first space at index
40 with name `HEAD`, the scan records that line as the `HEAD` line (span
89..139) — it is not skipped as a header/comment. -/
theorem c8_counterexample :
    changeRefsScan (encAd [
      .data (("# service=git-upload-pack\n").toList),
      .data ((List.replicate 40 'b') ++ (" refs/heads/v1\n").toList),
      .data (('#' :: List.replicate 39 'z') ++ (" HEAD\n").toList)]) ⟨1, -1, -1, false⟩ =
    .ok ⟨89, 139, 0, 0, List.replicate 40 'b', ("refs/heads/v1".toList),
      ⟨1, -1, -1, false⟩, [⟨1, -1, -1, false⟩]⟩ := by
  decide

/-! ## Claim C3: the dual-syntax path grammar (fetch.go 17-18, vanity.go 32-62)

A small backtracking regular-expression engine with leftmost-first
(Perl-preference) semantics — greedy quantifiers prefer the longer match,
alternation prefers its left arm — which is what Go's `regexp` package
implements for submatch extraction.  Both source patterns are anchored
(`^...$`), so matching runs from position 0 and must end at the end of the
input.  Capture groups are recorded on completion, most recent first. -/

/-- Regular-expression syntax, transliterated from the two source pattern
strings.  `cls` holds a character-class predicate; `star` bodies in the
source patterns always consume at least one character. -/
inductive RE where
  | eps
  | chr (c : Char)
  | cls (f : Char → Bool)
  | seq (a b : RE)
  | alt (a b : RE)
  | opt (a : RE)
  | star (a : RE)
  | group (idx : Nat) (a : RE)

/-- Backtracking matcher in continuation-passing style.  `fuel` bounds the
recursion depth (one unit per syntax node visited along a path, so a
generous multiple of the input length is ample; evaluation is lazy, unused
fuel costs nothing). -/
def reMatch (s : List Char) : Nat → RE → Nat → List (Nat × Nat × Nat) →
    (Nat → List (Nat × Nat × Nat) → Option (List (Nat × Nat × Nat))) →
    Option (List (Nat × Nat × Nat))
  | 0, _, _, _, _ => none
  | fuel + 1, re, pos, caps, k =>
    match re with
    | .eps => k pos caps
    | .chr c =>
      match s.get? pos with
      | some c2 => if c2 == c then k (pos + 1) caps else none
      | none => none
    | .cls f =>
      match s.get? pos with
      | some c2 => if f c2 then k (pos + 1) caps else none
      | none => none
    | .seq a b =>
      reMatch s fuel a pos caps (fun p2 c2 => reMatch s fuel b p2 c2 k)
    | .alt a b =>
      match reMatch s fuel a pos caps k with
      | some r => some r
      | none => reMatch s fuel b pos caps k
    | .opt a =>
      match reMatch s fuel a pos caps k with
      | some r => some r
      | none => k pos caps
    | .star a =>
      match reMatch s fuel a pos caps (fun p2 c2 =>
          if pos < p2 then reMatch s fuel (.star a) p2 c2 k else none) with
      | some r => some r
      | none => k pos caps
    | .group idx a =>
      reMatch s fuel a pos caps (fun p2 c2 => k p2 ((idx, pos, p2) :: c2))

/-- Anchored full match (both source patterns are `^...$`): run from
position 0 and accept only at the end of the input. -/
def reFind (r : RE) (s : List Char) : Option (List (Nat × Nat × Nat)) :=
  reMatch s ((s.length + 2) * 64) r 0 []
    (fun pos caps => if pos == s.length then some caps else none)

/-- Sequence of literal characters. -/
def strRE (cs : List Char) : RE := cs.foldr (fun c r => .seq (.chr c) r) .eps

/-- One-or-more repetition. -/
def plusRE (a : RE) : RE := .seq a (.star a)

/-- Character class `[a-z0-9]`. -/
def clsLower09 : RE := .cls (fun c => ('a' ≤ c && c ≤ 'z') || ('0' ≤ c && c ≤ '9'))

/-- Character class `[-a-z0-9]`. -/
def clsDashLower09 : RE :=
  .cls (fun c => c == '-' || ('a' ≤ c && c ≤ 'z') || ('0' ≤ c && c ≤ '9'))

/-- Character class `[a-zA-Z0-9]`. -/
def clsAlnum : RE :=
  .cls (fun c => ('a' ≤ c && c ≤ 'z') || ('A' ≤ c && c ≤ 'Z') || ('0' ≤ c && c ≤ '9'))

/-- Character class `[-a-zA-Z0-9]`. -/
def clsDashAlnum : RE :=
  .cls (fun c => c == '-' || ('a' ≤ c && c ≤ 'z') || ('A' ≤ c && c ≤ 'Z') ||
    ('0' ≤ c && c ≤ '9'))

/-- Character class `[a-zA-Z]`. -/
def clsAlpha : RE := .cls (fun c => ('a' ≤ c && c ≤ 'z') || ('A' ≤ c && c ≤ 'Z'))

/-- Character class `[-.a-zA-Z0-9]`. -/
def clsDashDotAlnum : RE :=
  .cls (fun c => c == '-' || c == '.' || ('a' ≤ c && c ≤ 'z') || ('A' ≤ c && c ≤ 'Z') ||
    ('0' ≤ c && c ≤ '9'))

/-- Character class `[0-9]`. -/
def clsDigit : RE := .cls (fun c => '0' ≤ c && c ≤ '9')

/-- Character class `[1-9]`. -/
def clsNonzero : RE := .cls (fun c => '1' ≤ c && c ≤ '9')

/-- The version fragment `(?:v0|v[1-9][0-9]*)(?:\.0|\.[1-9][0-9]*){0,2}(?:-unstable)?`
shared by both patterns; `{0,2}` is encoded as two nested greedy options. -/
def versionRE : RE :=
  .seq (.alt (strRE ("v0".toList)) (.seq (.chr 'v') (.seq clsNonzero (.star clsDigit))))
    (.seq
      (.opt (.seq
        (.alt (strRE (".0".toList)) (.seq (.chr '.') (.seq clsNonzero (.star clsDigit))))
        (.opt (.alt (strRE (".0".toList))
          (.seq (.chr '.') (.seq clsNonzero (.star clsDigit)))))))
      (.opt (strRE ("-unstable".toList))))

/-- `patternOld` (fetch.go:17):
`^/(?:([a-z0-9][-a-z0-9]+)/)?((?:v0|v[1-9][0-9]*)(?:\.0|\.[1-9][0-9]*){0,2}(?:-unstable)?)/([a-zA-Z][-a-zA-Z0-9]*)(?:\.git)?((?:/[a-zA-Z][-a-zA-Z0-9]*)*)$` -/
def patternOld : RE :=
  .seq (.chr '/')
    (.seq (.opt (.seq (.group 1 (.seq clsLower09 (plusRE clsDashLower09))) (.chr '/')))
      (.seq (.group 2 versionRE)
        (.seq (.chr '/')
          (.seq (.group 3 (.seq clsAlpha (.star clsDashAlnum)))
            (.seq (.opt (strRE (".git".toList)))
              (.group 4 (.star (.seq (.chr '/')
                (.seq clsAlpha (.star clsDashAlnum))))))))))

/-- `patternNew` (fetch.go:18):
`^/(?:([a-zA-Z0-9][-a-zA-Z0-9]+)/)?([a-zA-Z][-.a-zA-Z0-9]*)\.((?:v0|v[1-9][0-9]*)(?:\.0|\.[1-9][0-9]*){0,2}(?:-unstable)?)(?:\.git)?((?:/[a-zA-Z0-9][-.a-zA-Z0-9]*)*)$` -/
def patternNew : RE :=
  .seq (.chr '/')
    (.seq (.opt (.seq (.group 1 (.seq clsAlnum (plusRE clsDashAlnum))) (.chr '/')))
      (.seq (.group 2 (.seq clsAlpha (.star clsDashDotAlnum)))
        (.seq (.chr '.')
          (.seq (.group 3 versionRE)
            (.seq (.opt (strRE (".git".toList)))
              (.group 4 (.star (.seq (.chr '/')
                (.seq clsAlnum (.star clsDashDotAlnum))))))))))

/-- Submatch `i` as Go's `FindStringSubmatch` reports it: the text of the
most recent completion of group `i`, or the empty string for a group that
did not participate. -/
def subm (s : List Char) (caps : List (Nat × Nat × Nat)) (i : Nat) : List Char :=
  match caps.find? (fun t => t.1 == i) with
  | some t => sub s t.2.1 t.2.2
  | none => []

/-- Errors of `handle` (vanity.go 38, 46, 61). -/
inductive HandleErr where
  | unsupported
  | majorOnly (bare full : List Char)
  | badVersion (text : List Char)
deriving DecidableEq, Repr

/-- The fields of `Repo` (vanity.go 83-102) populated by the path grammar;
the remaining fields (`FullVersion`, `AllVersions`, redirects) are filled
by the fetch/rewrite phase, which is modelled separately. -/
structure Repo where
  User : List Char
  Name : List Char
  SubPath : List Char
  OldFormat : Bool
  MajorVersion : Version
deriving DecidableEq, Repr

/-- The checks of vanity.go 45-62 after a pattern matched, on the already
normalized submatches (`m1` owner, `m2` name, `m3` version, `m4` subpath):
a version field with a `.` fails `MajorOnly`, naming the accepted bare
major (`m[3][:strings.Index(m[3], ".")]`) and the offending field;
otherwise the version text must parse. -/
def buildRepo (m1 m2 m3 m4 : List Char) (oldFormat : Bool) : Except HandleErr Repo :=
  if m3.any (fun c => c == '.') then
    .error (.majorOnly (m3.take ((m3.findIdx? (fun c => c == '.')).getD 0)) m3)
  else
    match parseVersion m3 with
    | none => .error (.badVersion m3)
    | some v => .ok ⟨m1, m2, m4, oldFormat, v⟩

/-- The normalization of `handle` (vanity.go 32-62): try the new syntax
first; on an old-syntax match swap `m[2]`/`m[3]` so the shape is always
(owner, name, version, subpath), and record which syntax matched. -/
def handleParse (path : List Char) : Except HandleErr Repo :=
  match reFind patternNew path with
  | some caps =>
    buildRepo (subm path caps 1) (subm path caps 2) (subm path caps 3) (subm path caps 4) false
  | none =>
    match reFind patternOld path with
    | none => .error .unsupported
    | some caps =>
      buildRepo (subm path caps 1) (subm path caps 3) (subm path caps 2) (subm path caps 4) true


/-! ## Claim C4 and C7 theorems: fetch classification/retry and the cache -/

/-- Claim C7: `getRefs` returns a stored payload exactly when the entry's
age `now - fetchedAt` is strictly below the 60-unit TTL; `setRefs` discards
the write (cache unchanged, so the existing entry's payload and timestamp
survive) whenever a still-fresh entry exists for the key, and otherwise
stores the new payload stamped with the current time. -/
theorem c7_cache_ttl (cache : RefsCache) (now : Nat) (root : String) (refs : List Char) :
    (∀ b, getRefs cache now root = some b ↔
      ∃ e, cache.lookup root = some e ∧ e.refs = b ∧ now - e.timestamp < refsCacheTTL) ∧
    (∀ e, cache.lookup root = some e → now - e.timestamp < refsCacheTTL →
      setRefs cache now root refs = cache) ∧
    ((∀ e, cache.lookup root = some e → refsCacheTTL ≤ now - e.timestamp) →
      (setRefs cache now root refs).lookup root = some ⟨refs, now⟩) := by
  refine ⟨?_, ?_, ?_⟩
  · intro b
    unfold getRefs
    cases hl : List.lookup root cache with
    | none => simp
    | some e =>
      by_cases hf : now - e.timestamp < refsCacheTTL
      · simp [hf]
      · simp [hf]
  · intro e hl hf
    unfold setRefs
    rw [hl]
    simp [hf]
  · intro h
    unfold setRefs
    cases hl : List.lookup root cache with
    | none => simp [List.lookup]
    | some e =>
      dsimp only
      rw [if_neg (by have := h e hl; omega)]
      simp [List.lookup]

/-- Claim C7 witness: a fresh entry is served and write-protected; a stale
entry is overwritten with the current time. -/
theorem c7_cache_ttl_witness :
    getRefs [("r", ⟨['x'], 5⟩)] 10 "r" = some ['x'] ∧
    setRefs [("r", ⟨['x'], 5⟩)] 10 "r" ['y'] = [("r", ⟨['x'], 5⟩)] ∧
    (setRefs [("r", ⟨['x'], 5⟩)] 99 "r" ['y']).lookup "r" = some ⟨['y'], 99⟩ := by
  obtain ⟨h1, h2, _⟩ := c7_cache_ttl [("r", ⟨['x'], 5⟩)] 10 "r" ['y']
  obtain ⟨_, _, h3⟩ := c7_cache_ttl [("r", ⟨['x'], 5⟩)] 99 "r" ['y']
  refine ⟨(h1 ['x']).mpr ⟨⟨['x'], 5⟩, by simp [List.lookup], rfl, by decide⟩,
    h2 ⟨['x'], 5⟩ (by simp [List.lookup]) (by decide),
    h3 ?_⟩
  intro e he
  simp [List.lookup] at he
  subst he
  decide

/-- Claim C4: on a cache miss, a 200 response yields the body and writes it
to the cache keyed by the repository root (a subsequent get hits); 401 and
404 fail `RepoNotFound`; any other status fails `UpstreamError` with that
status; a client timeout fails `Timeout`, and the caller retries exactly
once (a first timeout hands the outcome to the second attempt; a second
timeout is surfaced as final; a non-timeout first outcome never consults
the second response). -/
theorem c4_fetch_classification (cache : RefsCache) (now : Nat) (root : String)
    (body : List Char) (s : Nat) (resp1 resp2 : HttpResp)
    (hmiss : getRefs cache now root = none) :
    (fetchRefs cache now root (.status 200 body) =
        (.ok body, setRefs cache now root body) ∧
      getRefs (setRefs cache now root body) now root = some body) ∧
    (fetchRefs cache now root (.status 401 body) = (.error .noRepo, cache) ∧
      fetchRefs cache now root (.status 404 body) = (.error .noRepo, cache)) ∧
    (s ≠ 200 → s ≠ 401 → s ≠ 404 →
      fetchRefs cache now root (.status s body) = (.error (.upstream s), cache)) ∧
    (fetchRefs cache now root .timeout = (.error .timeout, cache)) ∧
    (fetchRefsRetry cache now root .timeout resp2 = fetchRefs cache now root resp2) ∧
    (fetchRefsRetry cache now root .timeout .timeout = (.error .timeout, cache)) ∧
    ((fetchRefs cache now root resp1).1 ≠ .error .timeout →
      fetchRefsRetry cache now root resp1 resp2 = fetchRefs cache now root resp1) := by
  have hset : getRefs (setRefs cache now root body) now root = some body := by
    unfold setRefs getRefs
    cases hl : List.lookup root cache with
    | none => simp [List.lookup, refsCacheTTL]
    | some e =>
      dsimp only
      by_cases hf : now - e.timestamp < refsCacheTTL
      · exfalso
        unfold getRefs at hmiss
        rw [hl] at hmiss
        dsimp only at hmiss
        rw [if_pos hf] at hmiss
        exact absurd hmiss (by simp)
      · rw [if_neg hf]
        simp [List.lookup, refsCacheTTL]
  have htime : fetchRefs cache now root .timeout = (.error .timeout, cache) := by
    unfold fetchRefs; rw [hmiss]
  refine ⟨⟨?_, hset⟩, ⟨?_, ?_⟩, ?_, htime, ?_, ?_, ?_⟩
  · unfold fetchRefs; rw [hmiss]; rfl
  · unfold fetchRefs; rw [hmiss]; rfl
  · unfold fetchRefs; rw [hmiss]; rfl
  · intro h2 h4a h4b
    unfold fetchRefs
    rw [hmiss]
    dsimp only
    rw [if_neg (by simpa using h2), if_neg (by simp [h4a, h4b])]
  · unfold fetchRefsRetry
    rw [htime]
  · unfold fetchRefsRetry
    rw [htime]
    exact htime
  · intro hnt
    unfold fetchRefsRetry
    rcases h : fetchRefs cache now root resp1 with ⟨r, c1⟩
    rcases r with e | b
    · cases e with
      | timeout => exact absurd (by rw [h]) hnt
      | noRepo => rfl
      | upstream code => rfl
      | netErr => rfl
    · rfl

/-- Claim C4 witness: the classification at a concrete empty cache, with
status 500 as the generic upstream error. -/
theorem c4_fetch_classification_witness :
    (fetchRefs [] 0 "github.com/go-yaml/yaml" (.status 200 ['b']) =
        (.ok ['b'], setRefs [] 0 "github.com/go-yaml/yaml" ['b']) ∧
      getRefs (setRefs [] 0 "github.com/go-yaml/yaml" ['b']) 0 "github.com/go-yaml/yaml" =
        some ['b']) ∧
    (fetchRefs [] 0 "github.com/go-yaml/yaml" (.status 401 ['b']) = (.error .noRepo, []) ∧
      fetchRefs [] 0 "github.com/go-yaml/yaml" (.status 404 ['b']) = (.error .noRepo, [])) ∧
    ((500 : Nat) ≠ 200 → (500 : Nat) ≠ 401 → (500 : Nat) ≠ 404 →
      fetchRefs [] 0 "github.com/go-yaml/yaml" (.status 500 ['b']) =
        (.error (.upstream 500), [])) ∧
    (fetchRefs [] 0 "github.com/go-yaml/yaml" .timeout = (.error .timeout, [])) ∧
    (fetchRefsRetry [] 0 "github.com/go-yaml/yaml" .timeout (.status 200 ['b']) =
      fetchRefs [] 0 "github.com/go-yaml/yaml" (.status 200 ['b'])) ∧
    (fetchRefsRetry [] 0 "github.com/go-yaml/yaml" .timeout .timeout =
      (.error .timeout, [])) ∧
    ((fetchRefs [] 0 "github.com/go-yaml/yaml" (.status 404 ['b'])).1 ≠ .error .timeout →
      fetchRefsRetry [] 0 "github.com/go-yaml/yaml" (.status 404 ['b']) (.status 200 ['b']) =
        fetchRefs [] 0 "github.com/go-yaml/yaml" (.status 404 ['b'])) :=
  c4_fetch_classification [] 0 "github.com/go-yaml/yaml" ['b'] 500
    (.status 404 ['b']) (.status 200 ['b']) (by rfl)


/-- Claim C3: the path grammar normalizes `/yaml.v2` (new syntax) and
`/v2/yaml` (old syntax) to the same owner-empty, name `yaml`, major 2
shape (only the recorded syntax flag differs); `/go-check/check.v1`
normalizes to owner `go-check`, name `check`, major 1; and `/pkg.v2.1`
fails with the `MajorOnly` error (not the unsupported-pattern or
version-syntax error), identifying the accepted bare-major form `v2`
alongside the offending `v2.1`. -/
theorem c3_path_grammar :
    handleParse ("/yaml.v2".toList) =
      .ok ⟨[], ("yaml".toList), [], false, ⟨2, -1, -1, false⟩⟩ ∧
    handleParse ("/v2/yaml".toList) =
      .ok ⟨[], ("yaml".toList), [], true, ⟨2, -1, -1, false⟩⟩ ∧
    handleParse ("/go-check/check.v1".toList) =
      .ok ⟨("go-check".toList), ("check".toList), [], false, ⟨1, -1, -1, false⟩⟩ ∧
    handleParse ("/pkg.v2.1".toList) =
      .error (.majorOnly ("v2".toList) ("v2.1".toList)) := by
  exact ⟨by rfl, by rfl, by rfl, by rfl⟩


/-! ## Claims C9 and C10: totality of `changeRefs` over arbitrary bytes -/

/-- The scan loop never exhausts its fuel when the fuel exceeds the number
of bytes ahead of the cursor: every continuing iteration advances the
cursor by at least 4 bytes, and the `#` skip branch cannot recur because a
`#` first byte fails the very first length-prefix parse. -/
theorem scanLoop_not_outOfFuel (data : List Char) (major : Version) :
    ∀ (fuel i : Nat) (st : ScanState), data.length - i < fuel →
      data.head? ≠ some '#' →
      scanLoop data major fuel i st ≠ .outOfFuel := by
  intro fuel
  induction fuel with
  | zero => intro i st h hh; omega
  | succ n ih =>
    intro i st h hh
    unfold scanLoop
    split
    case isFalse => simp
    case isTrue hlt =>
      split
      case isTrue => simp
      case isFalse hlen =>
        split
        case h_1 => simp
        case h_2 size0 hhex =>
          repeat' split
          all_goals first
            | exact ih _ _ (by omega) hh
            | (intro hcon; exact ScanOut.noConfusion hcon)
            | simp_all

/-- The rewrite step returns a result or a panic, never the fuel marker. -/
theorem rewriteAd_not_outOfFuel (data : List Char) (st : ScanState) (caps : List Char) :
    rewriteAd data st caps ≠ .outOfFuel := by
  unfold rewriteAd
  repeat' split
  all_goals (intro hcon; exact ChangeOut.noConfusion hcon)

/-- A first byte `#` makes the length-prefix parse fail at once. -/
theorem parseHexGo_sharp (l : List Char) : parseHexGo ('#' :: l) = none := rfl

/-- Claim C10: `changeRefs` terminates for every input byte sequence and
every requested bucket: with fuel `data.length + 1` the parsing loop never
runs out, because each continuing iteration strictly advances the cursor
(a `0000` prefix is treated as a fixed 4-byte line, and a prefix that
parses to a negative number exits through the modelled bounds panic before
the cursor could move backwards). -/
theorem c10_changeRefs_terminates (data : List Char) (major : Version) :
    changeRefs data major ≠ .outOfFuel := by
  have hscan : changeRefsScan data major ≠ .outOfFuel := by
    unfold changeRefsScan
    by_cases hh : data.head? = some '#'
    · cases data with
      | nil => simp at hh
      | cons c tl =>
        have hc : c = '#' := by simpa using hh
        subst hc
        unfold scanLoop
        rw [if_pos (by simp : 0 < ('#' :: tl).length)]
        by_cases hlen4 : ('#' :: tl).length < 0 + 4
        · rw [if_pos hlen4]
          simp
        · rw [if_neg hlen4]
          have hsub : sub ('#' :: tl) 0 (0 + 4) = '#' :: tl.take 3 := by
            simp [sub]
          rw [hsub, parseHexGo_sharp]
          simp
    · exact scanLoop_not_outOfFuel data major (data.length + 1) 0 initScan (by omega) hh
  unfold changeRefs
  cases hs : changeRefsScan data major with
  | ok st =>
    dsimp only
    split
    · exact fun hcon => ChangeOut.noConfusion hcon
    · split
      · exact fun hcon => ChangeOut.noConfusion hcon
      · split
        · exact fun hcon => ChangeOut.noConfusion hcon
        · split
          case h_1 iN hN =>
            split
            · split
              · exact fun hcon => ChangeOut.noConfusion hcon
              · exact rewriteAd_not_outOfFuel _ _ _
            · exact rewriteAd_not_outOfFuel _ _ _
          case h_2 => exact rewriteAd_not_outOfFuel _ _ _
  | badSize i => dsimp only; exact fun hcon => ChangeOut.noConfusion hcon
  | incomplete => dsimp only; exact fun hcon => ChangeOut.noConfusion hcon
  | panicked => dsimp only; exact fun hcon => ChangeOut.noConfusion hcon
  | outOfFuel => exact absurd hs hscan

/-- Claim C9 demonstration: on the one-byte input `"0"` the loop's slice
`sdata[i:i+4]` runs past the end of the buffer and the Go code panics
(modelled `panicked`) instead of returning a result or a ProtocolError. -/
theorem c9_truncated_input_panics : changeRefs ['0'] v0Stable = .panicked := by decide

end Gopkg
